import Mathlib

/-!
Verification of the HTML/CSS text-patching subsystem of a landing-page
generator (src/app.py).  The Python functions are shallowly embedded as
executable Lean functions on `String` / `List Char`; the regex-driven
operations are embedded by implementing the exact matching semantics of the
concrete patterns used in the source (leftmost match, lazy/greedy pieces as
they actually behave for these patterns, case-insensitivity where the source
compiles with re.I).
-/

set_option maxHeartbeats 2000000

namespace LPGen

/-- ASCII whitespace, as matched by the regex class `\s` (model of the ASCII
range; the source never relies on exotic Unicode whitespace). -/
def pySpace (c : Char) : Bool :=
  c = ' ' || c = '\t' || c = '\n' || c = '\r' || c = '\x0b' || c = '\x0c'

/-- ASCII word characters, as matched by the regex class `\w`. -/
def wordChar (c : Char) : Bool :=
  c.isAlpha || c.isDigit || c = '_'

/-- Case-sensitive test that `pat` is an initial segment of the input. -/
def starts : List Char → List Char → Bool
  | [], _ => true
  | _ :: _, [] => false
  | a :: as, b :: bs => a = b && starts as bs

/-- Case-insensitive initial-segment test; the pattern is given in lower case. -/
def lcStarts : List Char → List Char → Bool
  | [], _ => true
  | _ :: _, [] => false
  | a :: as, b :: bs => a = b.toLower && lcStarts as bs

/-- Split at the first occurrence of character `t`: `(before, after)`,
`none` if `t` is absent.  This is Python `s.split(t, 1)` when it succeeds. -/
def chSplit (t : Char) : List Char → Option (List Char × List Char)
  | [] => none
  | c :: cs =>
    if c = t then some ([], cs)
    else
      match chSplit t cs with
      | some p => some (c :: p.1, p.2)
      | none => none

/-- Rest of the input after the first occurrence of character `c`. -/
def dropThru (c : Char) (s : List Char) : Option (List Char) :=
  match chSplit c s with
  | some p => some p.2
  | none => none

/-- Rest of the input after the first case-insensitive occurrence of `pat`
(pattern in lower case). -/
def dropThruCI (pat : List Char) : List Char → Option (List Char)
  | [] => none
  | b :: bs =>
    if lcStarts pat (b :: bs) then some (List.drop pat.length (b :: bs))
    else dropThruCI pat bs

/-- Leftmost-match scan: try matcher `m` at every position left to right,
returning the text before the first successful position and the match data. -/
def scanFirst {α : Type} (m : List Char → Option α) : List Char → Option (List Char × α)
  | [] =>
    match m [] with
    | some a => some ([], a)
    | none => none
  | c :: cs =>
    match m (c :: cs) with
    | some a => some ([], a)
    | none =>
      match scanFirst m cs with
      | some pa => some (c :: pa.1, pa.2)
      | none => none

/-- Global substitution by the empty string (`re.sub(pat, "", s)`): scan left
to right, at each match skip to the rest, otherwise keep the character.  All
matchers used consume at least one character, so fuel `s.length` is enough. -/
def subAllF (m : List Char → Option (List Char)) : Nat → List Char → List Char
  | _, [] => []
  | 0, s => s
  | fuel + 1, c :: cs =>
    match m (c :: cs) with
    | some rest => subAllF m fuel rest
    | none => c :: subAllF m fuel cs

def scriptOpen : List Char := "<script".data

def scriptClose : List Char := "</script>".data

def onLit : List Char := "on".data

/-- One match of `(?is)<script.*?>.*?</script>` starting exactly at the head
of the input; returns the rest after the match. -/
def matchScriptAt (s : List Char) : Option (List Char) :=
  if lcStarts scriptOpen s then
    match dropThru '>' (List.drop 7 s) with
    | none => none
    | some r1 => dropThruCI scriptClose r1
  else none

/-- One match of the inline-handler pattern
`(?is)\son\w+\s*=\s*(["\x27]).*?\1` starting exactly at the head of the
input; returns the rest after the match. -/
def matchOnAt (s : List Char) : Option (List Char) :=
  match s with
  | [] => none
  | c :: rest =>
    if pySpace c then
      if lcStarts onLit rest then
        let t := List.drop 2 rest
        if List.takeWhile wordChar t = [] then none
        else
          match List.dropWhile pySpace (List.dropWhile wordChar t) with
          | '=' :: t4 =>
            match List.dropWhile pySpace t4 with
            | q :: t6 => if q = '"' || q = '\x27' then dropThru q t6 else none
            | [] => none
          | _ => none
      else none
    else none

/-- Embedding of `sanitize_html` (src/app.py lines 112-115): first remove
script blocks, then inline `on*=` attributes. -/
def sanitize_html (html : String) : String :=
  let h1 := subAllF matchScriptAt html.data.length html.data
  ⟨subAllF matchOnAt h1.length h1⟩

/-! ### CSS `:root` token extraction / rewriting -/

def rootLit : List Char := ":root".data

def ddLit : List Char := "--".data

/-- One match of `VAR_RE = :root\s*\{([^}]*)\}` starting exactly at the head
of the input; returns `(group 1, rest after the match)`. -/
def tryRootAt (s : List Char) : Option (List Char × List Char) :=
  if starts rootLit s then
    match List.dropWhile pySpace (List.drop 5 s) with
    | c :: v => if c = '\x7b' then chSplit '\x7d' v else none
    | [] => none
  else none

/-- Leftmost match of VAR_RE (`VAR_RE.search`): `(prefix, group 1, suffix)`. -/
def varFind : List Char → Option (List Char × List Char × List Char)
  | [] => none
  | c :: cs =>
    match tryRootAt (c :: cs) with
    | some p => some ([], p.1, p.2)
    | none =>
      match varFind cs with
      | some q => some (c :: q.1, q.2.1, q.2.2)
      | none => none

/-- Python `str.strip()` on the ASCII whitespace model. -/
def pyStrip (l : List Char) : List Char :=
  ((List.dropWhile pySpace l).reverse.dropWhile pySpace).reverse

/-- Lookup in an insertion-ordered dictionary (first matching key). -/
def dget (d : List (String × String)) (k : String) : Option String :=
  match d with
  | [] => none
  | p :: rest => if p.1 = k then some p.2 else dget rest k

/-- Key membership in an insertion-ordered dictionary. -/
def keyMem (d : List (String × String)) (k : String) : Bool :=
  match d with
  | [] => false
  | p :: rest => if p.1 = k then true else keyMem rest k

/-- Python dict assignment `d[k] = v`: overwrite in place if the key exists,
otherwise append. -/
def dictUpd (d : List (String × String)) (k v : String) : List (String × String) :=
  if keyMem d k then d.map (fun p => if p.1 = k then (k, v) else p)
  else d ++ [(k, v)]

/-- Python `block.split(";")`. -/
def splitSemi : List Char → List (List Char)
  | [] => [[]]
  | c :: cs =>
    match splitSemi cs with
    | [] => [[]]
    | g :: gs => if c = ';' then [] :: g :: gs else (c :: g) :: gs

/-- One iteration of the declaration loop of `extract_root_vars`: if the line
contains a colon, split at the first colon, and record the stripped pair when
the key starts with `--` and the stripped value is nonempty. -/
def rootIns (d : List (String × String)) (ln : List Char) : List (String × String) :=
  match chSplit ':' ln with
  | none => d
  | some kv =>
    let ks := pyStrip kv.1
    let vs := pyStrip kv.2
    if starts ddLit ks ∧ vs ≠ [] then dictUpd d ⟨ks⟩ ⟨vs⟩ else d

/-- Left fold of `rootIns` over the split declaration lines. -/
def rootFold (segs : List (List Char)) (d : List (String × String)) : List (String × String) :=
  match segs with
  | [] => d
  | s :: rest => rootFold rest (rootIns d s)

/-- Embedding of `extract_root_vars` (src/app.py lines 189-198). -/
def extract_root_vars (css : String) : List (String × String) :=
  match varFind css.data with
  | none => []
  | some q => rootFold (splitSemi q.2.1) []

/-- The declaration loop of `repl` inside `replace_root_vars`: returns the
rebuilt pairs (in order) and the `seen` set (keys of `new_vars` that occurred
in the block). -/
def rebuildLoop (U : List (String × String)) : List (List Char) → List String × List String
  | [] => ([], [])
  | ln :: rest =>
    match chSplit ':' ln with
    | none => rebuildLoop U rest
    | some kv =>
      let key : String := ⟨pyStrip kv.1⟩
      let pr := rebuildLoop U rest
      match dget U key with
      | some nv => ((key ++ ": " ++ nv) :: pr.1, key :: pr.2)
      | none => ((key ++ ":" ++ (⟨kv.2⟩ : String)) :: pr.1, pr.2)

/-- The append loop of `repl`: keys of `new_vars` not seen in the block are
appended at the end. -/
def appendLoop (seen : List String) : List (String × String) → List String
  | [] => []
  | kv :: rest =>
    if seen.contains kv.1 then appendLoop seen rest
    else (kv.1 ++ ": " ++ kv.2) :: appendLoop seen rest

/-- The full list of rebuilt `key:value` strings produced by `repl`. -/
def rebuildPairs (block : List Char) (U : List (String × String)) : List String :=
  let pr := rebuildLoop U (splitSemi block)
  pr.1 ++ appendLoop pr.2 U

/-- Python `";".join(pairs)`. -/
def joinSemi : List String → String
  | [] => ""
  | [p] => p
  | p :: q :: rest => p ++ ";" ++ joinSemi (q :: rest)

/-- The pairs of the freshly synthesized `:root` head block (`f"{k}:{v}"`). -/
def headPairs (U : List (String × String)) : List String :=
  U.map (fun kv => kv.1 ++ ":" ++ kv.2)

/-- Embedding of `replace_root_vars` (src/app.py lines 200-218): if no
`:root` block exists a new one holding `new_vars` is prepended, otherwise the
first block is rewritten by `repl` (`VAR_RE.sub(repl, css, count=1)`). -/
def replace_root_vars (css : String) (new_vars : List (String × String)) : String :=
  match varFind css.data with
  | none => ":root\x7b" ++ joinSemi (headPairs new_vars) ++ "\x7d" ++ css
  | some q =>
    (⟨q.1⟩ : String) ++ ":root\x7b" ++ joinSemi (rebuildPairs q.2.1 new_vars) ++ "\x7d" ++ (⟨q.2.2⟩ : String)

/-- The colon-containing declarations of a block, each split at its first
colon (spec-side description used to state the corrected frame property). -/
def colonSegs (block : List Char) : List (List Char × List Char) :=
  (splitSemi block).filterMap (chSplit ':')

/-- The stripped keys of the colon-containing declarations of a block. -/
def strippedKeys (block : List Char) : List String :=
  (colonSegs block).map (fun kv => (⟨pyStrip kv.1⟩ : String))

/-- Declarative description of the block rewrite performed by
`replace_root_vars`: every colon-containing declaration is kept in order,
either replaced (`key: newValue`) when its stripped key is in the updates or
re-emitted as `strippedKey:originalValueText`; colon-free segments are
dropped; updates whose key never occurred in the block are appended. -/
def declPairs (block : List Char) (U : List (String × String)) : List String :=
  (colonSegs block).map (fun kv =>
    match dget U ⟨pyStrip kv.1⟩ with
    | some nv => (⟨pyStrip kv.1⟩ : String) ++ ": " ++ nv
    | none => (⟨pyStrip kv.1⟩ : String) ++ ":" ++ (⟨kv.2⟩ : String))
  ++ (U.filter (fun kv => !((strippedKeys block).contains kv.1))).map
      (fun kv => kv.1 ++ ": " ++ kv.2)

/-! ### Content patchers -/

/-- The characters escaped by Python `re.escape` (3.7+ character set). -/
def reSpecial (c : Char) : Bool :=
  ['(', ')', '[', ']', '\x7b', '\x7d', '?', '*', '+', '-', '|', '^', '$',
   '\\', '.', '&', '~', '#', ' ', '\t', '\n', '\r', '\x0b', '\x0c'].contains c

/-- Python `re.escape`. -/
def pyReEscape : List Char → List Char
  | [] => []
  | c :: rest => (if reSpecial c then ['\\', c] else [c]) ++ pyReEscape rest

/-- Python replacement-template expansion (`sre_parse.parse_template`) for
group-free templates: `\\` and the named control escapes are decoded, any
other backslash pair is kept verbatim ("unknown escapes such as \& are left
alone").  Backslash-digit group references never occur here because the
templates fed to it are outputs of `re.escape`. -/
def pyExpand : List Char → List Char
  | [] => []
  | '\\' :: c :: rest =>
    (if c = '\\' then ['\\']
     else if c = 'a' then ['\x07']
     else if c = 'b' then ['\x08']
     else if c = 'f' then ['\x0c']
     else if c = 'n' then ['\n']
     else if c = 'r' then ['\r']
     else if c = 't' then ['\t']
     else if c = 'v' then ['\x0b']
     else ['\\', c]) ++ pyExpand rest
  | c :: rest => c :: pyExpand rest

/-- The text actually inserted by the patchers for replacement text `t`:
template expansion of `re.escape(t)` (the source builds the replacement as
`r"\1" + re.escape(new_text) + r"\3"`). -/
def escRepl (t : String) : List Char := pyExpand (pyReEscape t.data)

def h1Open : List Char := "<h1".data

def h1Close : List Char := "</h1>".data

/-- Scan for the first case-insensitive occurrence of `pat` (in lower case);
returns `(before, matched original text, after)`. -/
def ciSeek (pat : List Char) : List Char → Option (List Char × List Char × List Char)
  | [] => none
  | c :: cs =>
    if lcStarts pat (c :: cs) then
      some ([], List.take pat.length (c :: cs), List.drop pat.length (c :: cs))
    else
      match ciSeek pat cs with
      | some q => some (c :: q.1, q.2.1, q.2.2)
      | none => none

/-- One match of `(?si)(<h1[^>]*>)(.*?)(</h1>)` starting exactly here;
returns `(open tag, inner, close tag, rest)`. -/
def matchH1At (s : List Char) : Option (List Char × List Char × List Char × List Char) :=
  if lcStarts h1Open s then
    match chSplit '>' (List.drop 3 s) with
    | none => none
    | some ar =>
      match ciSeek h1Close ar.2 with
      | none => none
      | some q => some (List.take 3 s ++ ar.1 ++ ['>'], q.1, q.2.1, q.2.2)
  else none

/-- Leftmost h1 match: `(prefix, open tag, inner, close tag, rest)`. -/
def h1Find (s : List Char) : Option (List Char × List Char × List Char × List Char × List Char) :=
  match scanFirst matchH1At s with
  | none => none
  | some pq => some (pq.1, pq.2.1, pq.2.2.1, pq.2.2.2.1, pq.2.2.2.2)

/-- Embedding of `replace_first_h1` (src/app.py lines 246-248): `re.sub` with
count 1; the replacement inserts `escRepl new_text` between the matched open
and close tags. -/
def replace_first_h1 (html new_text : String) : String :=
  match h1Find html.data with
  | none => html
  | some q => ⟨q.1 ++ q.2.1 ++ escRepl new_text ++ q.2.2.2.1 ++ q.2.2.2.2⟩

def pLit : List Char := "p".data

def divLit : List Char := "div".data

def classEq : List Char := "class=".data

def subLit : List Char := "sub".data

def leadLit : List Char := "lead".data

def quoteCh (c : Char) : Bool := c = '"' || c = '\x27'

/-- Length of the alternation `(sub|lead)` match at this position, none if
neither alternative matches (case-insensitively). -/
def classWordLen (u3 : List Char) : Option Nat :=
  if lcStarts subLit u3 then some 3 else if lcStarts leadLit u3 then some 4 else none

/-- Continuation of the subtext pattern after the tag name `tagTxt`:
`\s+class=["\x27](sub|lead)["\x27][^>]*>(.*?)(</tag>)` (tag back-reference is
case-insensitive).  Returns `(open tag, inner, close tag, rest)`. -/
def matchSubTag (tagTxt after : List Char) : Option (List Char × List Char × List Char × List Char) :=
  if List.takeWhile pySpace after = [] then none
  else
    let w := List.takeWhile pySpace after
    let u := List.dropWhile pySpace after
    if lcStarts classEq u then
      match List.drop 6 u with
      | q1 :: u3 =>
        if quoteCh q1 then
          match classWordLen u3 with
          | none => none
          | some n =>
            match List.drop n u3 with
            | q2 :: u5 =>
              if quoteCh q2 then
                match chSplit '>' u5 with
                | none => none
                | some ar =>
                  match ciSeek ('<' :: '/' :: (tagTxt.map Char.toLower) ++ ['>']) ar.2 with
                  | none => none
                  | some qq =>
                    some ('<' :: tagTxt ++ w ++ List.take 6 u ++ [q1] ++
                            List.take n u3 ++ [q2] ++ ar.1 ++ ['>'],
                          qq.1, qq.2.1, qq.2.2)
              else none
            | [] => none
        else none
      | [] => none
    else none

/-- One match of the subtext pattern
`(?si)(<(p|div)\s+class=["\x27](sub|lead)["\x27][^>]*>)(.*?)(</\2>)`
starting exactly here. -/
def matchSubAt (s : List Char) : Option (List Char × List Char × List Char × List Char) :=
  match s with
  | [] => none
  | c :: s1 =>
    if c = '<' then
      if lcStarts pLit s1 then matchSubTag (List.take 1 s1) (List.drop 1 s1)
      else if lcStarts divLit s1 then matchSubTag (List.take 3 s1) (List.drop 3 s1)
      else none
    else none

/-- Leftmost subtext match: `(prefix, open tag, inner, close tag, rest)`. -/
def subFind (s : List Char) : Option (List Char × List Char × List Char × List Char × List Char) :=
  match scanFirst matchSubAt s with
  | none => none
  | some pq => some (pq.1, pq.2.1, pq.2.2.1, pq.2.2.2.1, pq.2.2.2.2)

/-- Embedding of `replace_subtext` (src/app.py lines 254-257). -/
def replace_subtext (html new_text : String) : String :=
  match subFind html.data with
  | none => html
  | some q => ⟨q.1 ++ q.2.1 ++ escRepl new_text ++ q.2.2.2.1 ++ q.2.2.2.2⟩

/-! ### Image placeholder replacement -/

def classLit : List Char := "class".data

def ariaLit : List Char := "aria-label".data

/-- One match of `attr\s*=\s*"([^"]+)"` (case-insensitive) starting exactly
here; returns group 1. -/
def matchAttrAt (attr : List Char) (s : List Char) : Option (List Char) :=
  if lcStarts attr s then
    match List.dropWhile pySpace (List.drop attr.length s) with
    | '=' :: t2 =>
      match List.dropWhile pySpace t2 with
      | '"' :: t3 =>
        match chSplit '"' t3 with
        | some cv => if cv.1 = [] then none else some cv.1
        | none => none
      | _ => none
    | _ => none
  else none

/-- Search (`re.search`) for the attribute pattern: first matching value. -/
def attrSearch (attr : List Char) (s : List Char) : Option (List Char) :=
  match scanFirst (matchAttrAt attr) s with
  | none => none
  | some pa => some pa.2

/-- First-occurrence split of an exact substring: `(before, after)`. -/
def occSplit (pat : List Char) : List Char → Option (List Char × List Char)
  | [] => if pat = [] then some ([], []) else none
  | c :: cs =>
    if starts pat (c :: cs) then some ([], List.drop pat.length (c :: cs))
    else
      match occSplit pat cs with
      | some p => some (c :: p.1, p.2)
      | none => none

/-- Python `s.replace(pat, rep, 1)`. -/
def replFirst (s pat rep : List Char) : List Char :=
  match occSplit pat s with
  | none => s
  | some p => p.1 ++ rep ++ p.2

/-- Embedding of `replace_placeholder_with_img` (src/app.py lines 232-240). -/
def replace_placeholder_with_img (html placeholder_html data_uri : String) : String :=
  let cls : String :=
    match attrSearch classLit placeholder_html.data with
    | some c => ⟨c⟩
    | none => ""
  let alt : String :=
    match attrSearch ariaLit placeholder_html.data with
    | some a => ⟨a⟩
    | none => "image"
  let img : String :=
    "<img src=\"" ++ data_uri ++ "\" alt=\"" ++ alt ++ "\" class=\"" ++ cls ++ "\"/>"
  ⟨replFirst html.data placeholder_html.data img.data⟩

/-! ### Asset packaging (`to_zip`) -/

def srcData : List Char := "src=\"data:".data

def b64sep : List Char := ";base64,".data

/-- All non-overlapping matches of the pattern `src="data:[^"]+"` in order
(`re.findall`); fuel-indexed scan, and fuel `s.length` suffices since every
step consumes at least one character. -/
def findSrcF : Nat → List Char → List (List Char)
  | 0, _ => []
  | _, [] => []
  | fuel + 1, c :: cs =>
    if starts srcData (c :: cs) then
      match chSplit '"' (List.drop 10 (c :: cs)) with
      | some bq =>
        if bq.1 = [] then findSrcF fuel cs
        else (srcData ++ bq.1 ++ ['"']) :: findSrcF fuel bq.2
      | none => findSrcF fuel cs
    else findSrcF fuel cs

def findSrcData (s : List Char) : List (List Char) := findSrcF s.length s

/-- Strip the `src="` head and the trailing quote off a findall match
(`m.split` at the first quote, then `rsplit` at the last). -/
def uriOf (m : List Char) : List Char :=
  let a : List Char :=
    match dropThru '"' m with
    | some r => r
    | none => []
  match dropThru '"' a.reverse with
  | some r => r.reverse
  | none => a

/-- Substring occurrence test. -/
def hasOcc (pat s : List Char) : Bool :=
  match occSplit pat s with
  | some _ => true
  | none => false

/-- File extension selection from the data-URI head. -/
def imgExt (head : List Char) : String :=
  if hasOcc ("image/png".data) head then ("png")
  else if hasOcc ("image/webp".data) head then ("webp")
  else if hasOcc ("image/jpeg".data) head || hasOcc ("image/jpg".data) head then ("jpg")
  else ("png")

/-- Value of a standard base64 alphabet character. -/
def b64Val (c : Char) : Option Nat :=
  if 'A' ≤ c ∧ c ≤ 'Z' then some (c.toNat - 65)
  else if 'a' ≤ c ∧ c ≤ 'z' then some (c.toNat - 97 + 26)
  else if '0' ≤ c ∧ c ≤ '9' then some (c.toNat - 48 + 52)
  else if c = '+' then some 62
  else if c = '/' then some 63
  else none

/-- Models Python `base64.b64decode` on well-formed standard-alphabet input
(length a multiple of four, `=` padding only at the end); `none` models the
`binascii.Error` raised otherwise. -/
def b64Decode : List Char → Option (List Nat)
  | [] => some []
  | c1 :: c2 :: c3 :: c4 :: rest =>
    match b64Val c1, b64Val c2 with
    | some v1, some v2 =>
      if c3 = '=' then
        if c4 = '=' ∧ rest = [] then some [v1 * 4 + v2 / 16] else none
      else
        match b64Val c3 with
        | some v3 =>
          if c4 = '=' then
            if rest = [] then some [v1 * 4 + v2 / 16, (v2 % 16) * 16 + v3 / 4] else none
          else
            match b64Val c4, b64Decode rest with
            | some v4, some bs =>
              some ((v1 * 4 + v2 / 16) :: ((v2 % 16) * 16 + v3 / 4) :: ((v3 % 4) * 64 + v4) :: bs)
            | _, _ => none
        | none => none
    | _, _ => none
  | _ => none

/-- An archive entry: raw bytes or text written by `writestr`. -/
inductive ZEntry : Type
  | bin : List Nat → ZEntry
  | txt : String → ZEntry
deriving DecidableEq

/-- The image-extraction loop of `to_zip`: walks the findall matches carrying
the running image index and the progressively rewritten HTML.  A data URI
without the `;base64,` marker is skipped entirely (the whole body of the loop
is guarded by that membership test; the `";base64;"` fallback split in the
source is unreachable because the guard ensures the first split succeeds). -/
def toZipGo : List (List Char) → Nat → List Char → Option (List (String × ZEntry) × List Char)
  | [], _, html => some ([], html)
  | m :: ms, idx, html =>
    let uri := uriOf m
    match occSplit b64sep uri with
    | some hb =>
      match b64Decode hb.2 with
      | none => none
      | some bytes =>
        let path : String := "assets/img_" ++ Nat.repr idx ++ "." ++ imgExt hb.1
        match toZipGo ms (idx + 1) (replFirst html uri ("./" ++ path).data) with
        | none => none
        | some rest => some ((path, ZEntry.bin bytes) :: rest.1, rest.2)
    | none => toZipGo ms idx html

/-- Embedding of `to_zip` (src/app.py lines 438-464): the archive is the
ordered list of written entries; `none` models a base64 decode failure
escaping as an exception. -/
def to_zip (html css : String) : Option (List (String × ZEntry)) :=
  match toZipGo (findSrcData html.data) 1 html.data with
  | none => none
  | some r =>
    some (r.1 ++ [("index.html", ZEntry.txt ⟨r.2⟩), ("styles.css", ZEntry.txt css),
                  ("script.js", ZEntry.txt (""))])

/-! ### Validity conditions used by the corrected round-trip claims -/

/-- A token key that survives the parse untouched: starts with `--`,
whitespace-stripped form is itself, and contains none of the characters the
`:root` grammar uses as delimiters. -/
def cleanKey (k : String) : Prop :=
  starts ddLit k.data = true ∧ pyStrip k.data = k.data ∧
    ':' ∉ k.data ∧ ';' ∉ k.data ∧ '\x7d' ∉ k.data

/-- A token value that survives the parse untouched: nonempty, strip-invariant
and free of the `;` and `closing brace` delimiters. -/
def cleanVal (v : String) : Prop :=
  v.data ≠ [] ∧ pyStrip v.data = v.data ∧ ';' ∉ v.data ∧ '\x7d' ∉ v.data

/-- A well-formed update mapping: distinct keys (as in a Python dict), every
key and value clean in the above sense. -/
def cleanU (U : List (String × String)) : Prop :=
  (U.map Prod.fst).Nodup ∧ ∀ kv ∈ U, cleanKey kv.1 ∧ cleanVal kv.2

instance (k : String) : Decidable (cleanKey k) := by
  unfold cleanKey
  infer_instance

instance (v : String) : Decidable (cleanVal v) := by
  unfold cleanVal
  infer_instance

instance (U : List (String × String)) : Decidable (cleanU U) := by
  unfold cleanU
  infer_instance

/-! ### Basic lemmas -/

theorem strEta (s : String) : (⟨s.data⟩ : String) = s := by
  cases s
  rfl

theorem mkInj {a b : List Char} (h : (⟨a⟩ : String) = ⟨b⟩) : a = b := by
  injection h

theorem chSplit_sound {t : Char} : ∀ {l a b : List Char}, chSplit t l = some (a, b) →
    l = a ++ t :: b ∧ t ∉ a := by
  intro l
  induction l with
  | nil => intro a b h; simp [chSplit] at h
  | cons c cs ih =>
    intro a b h
    simp only [chSplit] at h
    by_cases hc : c = t
    · rw [if_pos hc] at h
      simp only [Option.some.injEq, Prod.mk.injEq] at h
      obtain ⟨h1, h2⟩ := h
      subst h1; subst h2; subst hc
      simp
    · rw [if_neg hc] at h
      cases hcs : chSplit t cs with
      | none => rw [hcs] at h; simp at h
      | some p =>
        rw [hcs] at h
        simp only [Option.some.injEq, Prod.mk.injEq] at h
        obtain ⟨h1, h2⟩ := h
        subst h1; subst h2
        obtain ⟨he, hn⟩ := ih (a := p.1) (b := p.2) (by rw [hcs])
        constructor
        · rw [List.cons_append, ← he]
        · intro hm
          rcases List.mem_cons.mp hm with h | h
          · exact hc h.symm
          · exact hn h

theorem chSplit_app {t : Char} : ∀ {a : List Char}, t ∉ a → ∀ (b : List Char),
    chSplit t (a ++ t :: b) = some (a, b) := by
  intro a
  induction a with
  | nil => intro _ b; simp [chSplit]
  | cons c cs ih =>
    intro hna b
    have hc : ¬ c = t := fun h => hna (by simp [h])
    have hcs : t ∉ cs := fun h => hna (List.mem_cons_of_mem _ h)
    simp only [List.cons_append, chSplit, if_neg hc, List.append_eq, ih hcs b]

theorem chSplit_none {t : Char} : ∀ {l : List Char}, t ∉ l → chSplit t l = none := by
  intro l
  induction l with
  | nil => intro _; rfl
  | cons c cs ih =>
    intro hn
    have hc : ¬ c = t := fun h => hn (by simp [h])
    have hcs : t ∉ cs := fun h => hn (List.mem_cons_of_mem _ h)
    simp only [chSplit, if_neg hc, ih hcs]

theorem starts_app (pat r : List Char) : starts pat (pat ++ r) = true := by
  induction pat with
  | nil => rfl
  | cons c cs ih => simp [starts, ih]

theorem starts_ex : ∀ {pat s : List Char}, starts pat s = true → ∃ r, s = pat ++ r := by
  intro pat
  induction pat with
  | nil => intro s _; exact ⟨s, rfl⟩
  | cons c cs ih =>
    intro s h
    cases s with
    | nil => simp [starts] at h
    | cons b bs =>
      simp only [starts, Bool.and_eq_true, decide_eq_true_eq] at h
      obtain ⟨rfl, h2⟩ := h
      obtain ⟨r, rfl⟩ := ih h2
      exact ⟨r, rfl⟩

theorem splitSemi_ne_nil : ∀ (l : List Char), splitSemi l ≠ [] := by
  intro l
  cases l with
  | nil => simp [splitSemi]
  | cons c cs =>
    simp only [splitSemi]
    cases splitSemi cs with
    | nil => simp
    | cons g gs => by_cases hc : c = ';' <;> simp [hc]

theorem splitSemi_no : ∀ {l : List Char}, ';' ∉ l → splitSemi l = [l] := by
  intro l
  induction l with
  | nil => intro _; rfl
  | cons c cs ih =>
    intro hn
    have hc : ¬ c = ';' := fun h => hn (by simp [h])
    have hcs : ';' ∉ cs := fun h => hn (List.mem_cons_of_mem _ h)
    simp only [splitSemi, ih hcs, if_neg hc]

theorem splitSemi_app : ∀ {a : List Char}, ';' ∉ a → ∀ (b : List Char),
    splitSemi (a ++ ';' :: b) = a :: splitSemi b := by
  intro a
  induction a with
  | nil =>
    intro _ b
    simp only [List.nil_append, splitSemi]
    cases h : splitSemi b with
    | nil => exact absurd h (splitSemi_ne_nil b)
    | cons g gs => simp
  | cons c cs ih =>
    intro hn b
    have hc : ¬ c = ';' := fun h => hn (by simp [h])
    have hcs : ';' ∉ cs := fun h => hn (List.mem_cons_of_mem _ h)
    simp only [List.cons_append, splitSemi, List.append_eq, ih hcs b, if_neg hc]

theorem splitSemi_mem : ∀ {l s : List Char}, s ∈ splitSemi l →
    ∀ {c : Char}, c ∈ s → c ∈ l ∧ ¬ c = ';' := by
  intro l
  induction l with
  | nil =>
    intro s hs c hc
    simp only [splitSemi, List.mem_singleton] at hs
    subst hs
    simp at hc
  | cons a as ih =>
    intro s hs c hc
    simp only [splitSemi] at hs
    cases h : splitSemi as with
    | nil => exact absurd h (splitSemi_ne_nil as)
    | cons g gs =>
      rw [h] at hs
      dsimp only at hs
      by_cases ha : a = ';'
      · rw [if_pos ha] at hs
        rcases List.mem_cons.mp hs with h1 | h1
        · subst h1; simp at hc
        · have h2 := ih (by rw [h]; exact h1) hc
          exact ⟨List.mem_cons_of_mem _ h2.1, h2.2⟩
      · rw [if_neg ha] at hs
        rcases List.mem_cons.mp hs with h1 | h1
        · subst h1
          rcases List.mem_cons.mp hc with h2 | h2
          · subst h2; exact ⟨List.mem_cons_self _ _, ha⟩
          · have h3 := ih (by rw [h]; exact List.mem_cons_self g gs) h2
            exact ⟨List.mem_cons_of_mem _ h3.1, h3.2⟩
        · have h3 := ih (by rw [h]; exact List.mem_cons_of_mem _ h1) hc
          exact ⟨List.mem_cons_of_mem _ h3.1, h3.2⟩

theorem dw_false {p : Char → Bool} : ∀ {l : List Char} {c : Char} {t : List Char},
    List.dropWhile p l = c :: t → p c = false := by
  intro l
  induction l with
  | nil => intro c t h; simp [List.dropWhile] at h
  | cons a as ih =>
    intro c t h
    by_cases ha : p a = true
    · rw [List.dropWhile_cons_of_pos ha] at h
      exact ih h
    · rw [List.dropWhile_cons_of_neg ha] at h
      cases h
      simpa using ha

theorem dw_id {p : Char → Bool} : ∀ {l : List Char},
    (∀ c t, l = c :: t → p c = false) → List.dropWhile p l = l := by
  intro l h
  cases l with
  | nil => rfl
  | cons c t => exact List.dropWhile_cons_of_neg (by simp [h c t rfl])

theorem dw_dw {p : Char → Bool} (m : List Char) :
    List.dropWhile p (List.dropWhile p m) = List.dropWhile p m := by
  apply dw_id
  intro c t h
  exact dw_false h

theorem dw_mem {p : Char → Bool} : ∀ {m : List Char} {c : Char},
    c ∈ List.dropWhile p m → c ∈ m := by
  intro m
  induction m with
  | nil => intro c h; simp [List.dropWhile] at h
  | cons a as ih =>
    intro c h
    by_cases ha : p a = true
    · rw [List.dropWhile_cons_of_pos ha] at h
      exact List.mem_cons_of_mem _ (ih h)
    · rw [List.dropWhile_cons_of_neg ha] at h
      exact h

theorem dw_getLast {p : Char → Bool} : ∀ {m : List Char},
    List.dropWhile p m ≠ [] → (List.dropWhile p m).getLast? = m.getLast? := by
  intro m
  induction m with
  | nil => intro h; simp [List.dropWhile] at h
  | cons a as ih =>
    intro h
    by_cases ha : p a = true
    · rw [List.dropWhile_cons_of_pos ha] at h ⊢
      rw [ih h]
      have has : as ≠ [] := by
        intro h0
        rw [h0] at h
        simp [List.dropWhile] at h
      cases as with
      | nil => exact absurd rfl has
      | cons b bs => rfl
    · rw [List.dropWhile_cons_of_neg ha]

theorem pyStrip_mem : ∀ {l : List Char} {c : Char}, c ∈ pyStrip l → c ∈ l := by
  intro l c h
  unfold pyStrip at h
  rw [List.mem_reverse] at h
  have h2 := dw_mem h
  rw [List.mem_reverse] at h2
  exact dw_mem h2

theorem pyStrip_cons_space {c : Char} (hc : pySpace c = true) (l : List Char) :
    pyStrip (c :: l) = pyStrip l := by
  unfold pyStrip
  rw [List.dropWhile_cons_of_pos hc]

theorem pyStrip_idem (l : List Char) : pyStrip (pyStrip l) = pyStrip l := by
  unfold pyStrip
  set A := List.dropWhile pySpace l with hA
  set R := List.dropWhile pySpace A.reverse with hR
  have h1 : List.dropWhile pySpace R.reverse = R.reverse := by
    apply dw_id
    intro c t h
    have hRne : R ≠ [] := by
      intro h0
      rw [h0] at h
      simp at h
    have hhead : (R.reverse).head? = some c := by rw [h]; rfl
    rw [List.head?_reverse] at hhead
    rw [hR, dw_getLast (by rw [← hR]; exact hRne), List.getLast?_reverse] at hhead
    cases hA2 : A with
    | nil => rw [hA2] at hhead; simp at hhead
    | cons a t2 =>
      rw [hA2] at hhead
      simp only [List.head?_cons, Option.some.injEq] at hhead
      have h3 : List.dropWhile pySpace l = c :: t2 := by
        rw [← hA, hA2, hhead]
      exact dw_false h3
  rw [h1, List.reverse_reverse, hR, dw_dw]

theorem keyMem_false_dget : ∀ {d : List (String × String)} {k : String},
    keyMem d k = false → dget d k = none := by
  intro d
  induction d with
  | nil => intro k _; rfl
  | cons p rest ih =>
    intro k h
    by_cases hp : p.1 = k
    · simp [keyMem, hp] at h
    · simp only [keyMem, if_neg hp] at h
      simp only [dget, if_neg hp]
      exact ih h

theorem dget_append_none : ∀ {d : List (String × String)} {k : String},
    dget d k = none → ∀ e, dget (d ++ e) k = dget e k := by
  intro d
  induction d with
  | nil => intro k _ e; rfl
  | cons p rest ih =>
    intro k h e
    by_cases hp : p.1 = k
    · simp [dget, hp] at h
    · simp only [dget, if_neg hp] at h
      simp only [List.cons_append, dget, if_neg hp]
      exact ih h e

theorem dget_append_some : ∀ {d : List (String × String)} {k v : String},
    dget d k = some v → ∀ e, dget (d ++ e) k = some v := by
  intro d
  induction d with
  | nil => intro k v h; simp [dget] at h
  | cons p rest ih =>
    intro k v h e
    by_cases hp : p.1 = k
    · simp only [dget, if_pos hp] at h
      simp only [List.cons_append, dget, if_pos hp]
      exact h
    · simp only [dget, if_neg hp] at h
      simp only [List.cons_append, dget, if_neg hp]
      exact ih h e

theorem dget_map_upd : ∀ (d : List (String × String)) (k v : String), keyMem d k = true →
    dget (d.map (fun p => if p.1 = k then (k, v) else p)) k = some v := by
  intro d k v
  induction d with
  | nil => intro h; simp [keyMem] at h
  | cons p rest ih =>
    intro h
    by_cases hp : p.1 = k
    · simp [dget, hp]
    · have h2 : keyMem rest k = true := by
        simpa only [keyMem, if_neg hp] using h
      simp only [List.map_cons, if_neg hp, dget]
      exact ih h2

theorem dget_map_ne : ∀ (d : List (String × String)) (k v k2 : String), ¬ k2 = k →
    dget (d.map (fun p => if p.1 = k then (k, v) else p)) k2 = dget d k2 := by
  intro d k v k2 hne
  induction d with
  | nil => rfl
  | cons p rest ih =>
    by_cases hp : p.1 = k
    · simp only [List.map_cons, if_pos hp, dget]
      rw [if_neg (fun h => hne h.symm), if_neg (fun h => hne (hp ▸ h).symm)]
      exact ih
    · simp only [List.map_cons, if_neg hp, dget]
      by_cases hp2 : p.1 = k2
      · rw [if_pos hp2, if_pos hp2]
      · rw [if_neg hp2, if_neg hp2]
        exact ih

theorem dget_upd_self (d : List (String × String)) (k v : String) :
    dget (dictUpd d k v) k = some v := by
  unfold dictUpd
  by_cases hm : keyMem d k = true
  · rw [if_pos hm]
    exact dget_map_upd d k v hm
  · rw [if_neg hm]
    rw [dget_append_none (keyMem_false_dget (Bool.eq_false_iff.mpr hm))]
    simp [dget]

theorem dget_upd_ne (d : List (String × String)) (k v k2 : String) (hne : ¬ k2 = k) :
    dget (dictUpd d k v) k2 = dget d k2 := by
  unfold dictUpd
  by_cases hm : keyMem d k = true
  · rw [if_pos hm]
    exact dget_map_ne d k v k2 hne
  · rw [if_neg hm]
    cases hd : dget d k2 with
    | some v2 => exact dget_append_some hd _
    | none =>
      rw [dget_append_none hd]
      simp only [dget]
      rw [if_neg (fun h => hne h.symm)]

theorem scanFirst_none_cons {α : Type} {m : List Char → Option α} {c : Char} {cs : List Char}
    (h : scanFirst m (c :: cs) = none) : m (c :: cs) = none ∧ scanFirst m cs = none := by
  simp only [scanFirst] at h
  cases hm : m (c :: cs) with
  | some a => rw [hm] at h; simp at h
  | none =>
    rw [hm] at h
    cases hs : scanFirst m cs with
    | some pa => rw [hs] at h; simp at h
    | none => exact ⟨rfl, rfl⟩

theorem subAllF_id {m : List Char → Option (List Char)} : ∀ (fuel : Nat) {s : List Char},
    scanFirst m s = none → subAllF m fuel s = s := by
  intro fuel
  induction fuel with
  | zero => intro s _; cases s <;> rfl
  | succ f ih =>
    intro s h
    cases s with
    | nil => rfl
    | cons c cs =>
      obtain ⟨h1, h2⟩ := scanFirst_none_cons h
      simp only [subAllF, h1]
      rw [ih h2]

theorem rootLit_eq : rootLit = [':', 'r', 'o', 'o', 't'] := rfl

theorem starts_eq_of_take : ∀ (pat : List Char) {X Y : List Char},
    List.take pat.length X = List.take pat.length Y → starts pat X = starts pat Y := by
  intro pat
  induction pat with
  | nil => intro X Y _; rfl
  | cons a as ih =>
    intro X Y h
    cases X with
    | nil =>
      cases Y with
      | nil => rfl
      | cons y ys => simp [List.take] at h
    | cons x xs =>
      cases Y with
      | nil => simp [List.take] at h
      | cons y ys =>
        simp only [List.length_cons, List.take_succ_cons, List.cons.injEq] at h
        obtain ⟨rfl, h2⟩ := h
        simp only [starts]
        rw [ih h2]

theorem starts_congr (pat : List Char) {X Y : List Char}
    (h : List.take pat.length X = List.take pat.length Y) :
    ∀ (p : List Char), starts pat (p ++ X) = starts pat (p ++ Y) := by
  induction pat with
  | nil => intro p; rfl
  | cons a as ih =>
    intro p
    cases p with
    | nil => exact starts_eq_of_take (a :: as) h
    | cons d pt =>
      simp only [List.cons_append, starts, List.append_eq]
      have h2 : List.take as.length X = List.take as.length Y := by
        have h3 := congrArg (List.take as.length) h
        rw [List.take_take, List.take_take, List.length_cons,
            Nat.min_eq_left (Nat.le_succ _)] at h3
        exact h3
      rw [ih h2 pt]

theorem starts_blocked {c : Char} : ∀ (pat2 : List Char), c ∉ pat2 →
    ∀ (pt Xt : List Char), pt.length < pat2.length →
    starts pat2 (pt ++ c :: Xt) = false := by
  intro pat2
  induction pat2 with
  | nil => intro _ pt Xt h; simp at h
  | cons a as ih =>
    intro hcn pt Xt hlen
    cases pt with
    | nil =>
      simp only [List.nil_append, starts]
      have : ¬ a = c := fun h => hcn (by simp [h])
      simp [this]
    | cons q pt2 =>
      simp only [List.cons_append, starts, List.append_eq]
      have h2 : pt2.length < as.length := by
        simpa using Nat.lt_of_succ_lt_succ hlen
      rw [ih (fun h => hcn (List.mem_cons_of_mem _ h)) pt2 Xt h2]
      simp

theorem dw_append {pb : Char → Bool} {c : Char} (hc : pb c = false) :
    ∀ (a b : List Char), List.dropWhile pb (a ++ c :: b) = List.dropWhile pb a ++ c :: b := by
  intro a b
  induction a with
  | nil =>
    simp only [List.nil_append, List.dropWhile_nil]
    exact List.dropWhile_cons_of_neg (by simp [hc])
  | cons x xs ih =>
    by_cases hx : pb x = true
    · rw [List.cons_append, List.dropWhile_cons_of_pos hx, List.dropWhile_cons_of_pos hx, ih]
    · rw [List.cons_append, List.dropWhile_cons_of_neg (by simpa using hx),
          List.dropWhile_cons_of_neg (by simpa using hx), List.cons_append]

theorem chSplit_mem_ne_none {t : Char} : ∀ {l : List Char}, t ∈ l → chSplit t l ≠ none := by
  intro l
  induction l with
  | nil => intro h; simp at h
  | cons c cs ih =>
    intro hm
    by_cases hc : c = t
    · simp [chSplit, hc]
    · have h2 : t ∈ cs := by
        rcases List.mem_cons.mp hm with h | h
        · exact absurd h.symm hc
        · exact h
      simp only [chSplit, if_neg hc]
      cases hcs : chSplit t cs with
      | none => exact absurd hcs (ih h2)
      | some p => simp

theorem tw_mem {p : Char → Bool} : ∀ {m : List Char} {c : Char},
    c ∈ List.takeWhile p m → p c = true := by
  intro m
  induction m with
  | nil => intro c h; simp [List.takeWhile] at h
  | cons a as ih =>
    intro c h
    by_cases ha : p a = true
    · rw [List.takeWhile_cons_of_pos ha] at h
      rcases List.mem_cons.mp h with h1 | h1
      · rw [h1]; exact ha
      · exact ih h1
    · rw [List.takeWhile_cons_of_neg ha] at h
      simp at h

theorem tryRootAt_sound {t b r : List Char} (h : tryRootAt t = some (b, r)) :
    ∃ ws, (∀ c ∈ ws, pySpace c = true) ∧
      t = rootLit ++ ws ++ '\x7b' :: (b ++ '\x7d' :: r) ∧ '\x7d' ∉ b := by
  unfold tryRootAt at h
  by_cases hs : starts rootLit t = true
  · rw [if_pos hs] at h
    obtain ⟨R0, hR0⟩ := starts_ex hs
    have hdrop : List.drop 5 t = R0 := by
      rw [hR0, show (5 : Nat) = rootLit.length from rfl, List.drop_left]
    rw [hdrop] at h
    cases hdw : List.dropWhile pySpace R0 with
    | nil => rw [hdw] at h; simp at h
    | cons c v =>
      rw [hdw] at h
      dsimp only at h
      by_cases hc : c = '\x7b'
      · rw [if_pos hc] at h
        obtain ⟨hv, hnb⟩ := chSplit_sound h
        set ws := List.takeWhile pySpace R0 with hws
        have hR0d : R0 = ws ++ c :: v := by
          rw [hws]
          conv_lhs => rw [← List.takeWhile_append_dropWhile (p := pySpace) (l := R0)]
          rw [hdw]
        refine ⟨ws, fun c2 hc2 => tw_mem (by rwa [hws] at hc2), ?_, hnb⟩
        rw [hR0, hR0d, hc, hv, List.append_assoc]
      · rw [if_neg hc] at h; simp at h
  · rw [if_neg hs] at h; simp at h

theorem tryRootAt_build {J suf : List Char} (hJ : '\x7d' ∉ J) :
    tryRootAt (rootLit ++ '\x7b' :: (J ++ '\x7d' :: suf)) = some (J, suf) := by
  unfold tryRootAt
  rw [if_pos (starts_app _ _)]
  have hd : List.drop 5 (rootLit ++ '\x7b' :: (J ++ '\x7d' :: suf)) =
      '\x7b' :: (J ++ '\x7d' :: suf) := by
    rw [show (5 : Nat) = rootLit.length from rfl, List.drop_left]
  rw [hd, List.dropWhile_cons_of_neg (by decide)]
  dsimp only
  rw [if_pos rfl]
  exact chSplit_app hJ suf

theorem rootT {p X Y : List Char} (hp : p ≠ []) (hX : starts rootLit X = true)
    (hY : starts rootLit Y = true) (hbX : '\x7d' ∈ X) (_hbY : '\x7d' ∈ Y)
    (hnone : tryRootAt (p ++ X) = none) : tryRootAt (p ++ Y) = none := by
  obtain ⟨XR, hXR⟩ := starts_ex hX
  obtain ⟨YR, hYR⟩ := starts_ex hY
  have htake : List.take rootLit.length X = List.take rootLit.length Y := by
    rw [hXR, hYR, List.take_left, List.take_left]
  have hss := starts_congr rootLit htake p
  by_cases hs : starts rootLit (p ++ X) = true
  · by_cases h5 : 5 ≤ p.length
    · have hdX : List.drop 5 (p ++ X) = List.drop 5 p ++ X := by
        rw [List.drop_append_eq_append_drop, Nat.sub_eq_zero_of_le h5, List.drop_zero]
      have hdY : List.drop 5 (p ++ Y) = List.drop 5 p ++ Y := by
        rw [List.drop_append_eq_append_drop, Nat.sub_eq_zero_of_le h5, List.drop_zero]
      have hXc : X = ':' :: ('r' :: 'o' :: 'o' :: 't' :: XR) := by rw [hXR, rootLit_eq]; rfl
      have hYc : Y = ':' :: ('r' :: 'o' :: 'o' :: 't' :: YR) := by rw [hYR, rootLit_eq]; rfl
      have hwX : List.dropWhile pySpace (List.drop 5 p ++ X) =
          List.dropWhile pySpace (List.drop 5 p) ++ X := by
        rw [hXc]; exact dw_append (by decide) _ _
      have hwY : List.dropWhile pySpace (List.drop 5 p ++ Y) =
          List.dropWhile pySpace (List.drop 5 p) ++ Y := by
        rw [hYc]; exact dw_append (by decide) _ _
      unfold tryRootAt at hnone ⊢
      rw [if_pos hs, hdX, hwX] at hnone
      rw [if_pos (by rw [← hss]; exact hs), hdY, hwY]
      obtain ⟨W, hW⟩ : ∃ W, List.dropWhile pySpace (List.drop 5 p) = W := ⟨_, rfl⟩
      rw [hW] at hnone ⊢
      cases W with
      | nil =>
        rw [List.nil_append, hYc]
        dsimp only
        rw [if_neg (by decide)]
      | cons w0 W2 =>
        rw [List.cons_append] at hnone
        rw [List.cons_append]
        dsimp only at hnone ⊢
        by_cases hw0 : w0 = '\x7b'
        · rw [if_pos hw0] at hnone
          exact absurd hnone (chSplit_mem_ne_none (by simp [hbX]))
        · rw [if_neg hw0]
    · exfalso
      cases p with
      | nil => exact hp rfl
      | cons p0 pt =>
        have hXc : X = ':' :: ('r' :: 'o' :: 'o' :: 't' :: XR) := by rw [hXR, rootLit_eq]; rfl
        rw [List.cons_append, rootLit_eq] at hs
        simp only [starts, Bool.and_eq_true, List.append_eq] at hs
        obtain ⟨_, h2⟩ := hs
        rw [hXc] at h2
        have hlen : pt.length < 4 := by
          have hle : (p0 :: pt).length ≤ 4 := Nat.le_of_lt_succ (Nat.lt_of_not_le h5)
          simp only [List.length_cons] at hle
          omega
        have hblocked := starts_blocked (c := ':') ['r', 'o', 'o', 't'] (by decide)
          pt ('r' :: 'o' :: 'o' :: 't' :: XR) (by simpa using hlen)
        rw [hblocked] at h2
        exact absurd h2 (by decide)
  · unfold tryRootAt
    rw [if_neg (by rw [← hss]; exact hs)]

theorem varFind_sound : ∀ {s pre b r : List Char}, varFind s = some (pre, b, r) →
    ∃ t, s = pre ++ t ∧ tryRootAt t = some (b, r) ∧
      ∀ p q, pre = p ++ q → q ≠ [] → tryRootAt (q ++ t) = none := by
  intro s
  induction s with
  | nil => intro pre b r h; simp [varFind] at h
  | cons c cs ih =>
    intro pre b r h
    simp only [varFind] at h
    cases htr : tryRootAt (c :: cs) with
    | some pq =>
      rw [htr] at h
      dsimp only at h
      simp only [Option.some.injEq, Prod.mk.injEq] at h
      obtain ⟨h1, h2, h3⟩ := h
      subst h2
      subst h3
      refine ⟨c :: cs, by rw [← h1, List.nil_append], by rw [htr], ?_⟩
      intro p q hpq hq
      rw [← h1] at hpq
      rcases List.append_eq_nil.mp hpq.symm with ⟨_, h4⟩
      exact absurd h4 hq
    | none =>
      rw [htr] at h
      cases hv : varFind cs with
      | none => rw [hv] at h; simp at h
      | some q =>
        rw [hv] at h
        dsimp only at h
        simp only [Option.some.injEq, Prod.mk.injEq] at h
        obtain ⟨h1, h2, h3⟩ := h
        obtain ⟨t, ht1, ht2, ht3⟩ := @ih q.1 q.2.1 q.2.2 (by rw [hv])
        refine ⟨t, ?_, ?_, ?_⟩
        · rw [← h1, List.cons_append, ← ht1]
        · rw [h2, h3] at ht2; exact ht2
        · intro p2 q2 hpq hq2
          rw [← h1] at hpq
          cases p2 with
          | nil =>
            simp only [List.nil_append] at hpq
            rw [← hpq, List.cons_append, ← ht1]
            exact htr
          | cons d p3 =>
            simp only [List.cons_append, List.cons.injEq] at hpq
            obtain ⟨rfl, hpq2⟩ := hpq
            exact ht3 p3 q2 hpq2 hq2

theorem varFind_build : ∀ (pre : List Char) {t b r : List Char},
    (∀ p q, pre = p ++ q → q ≠ [] → tryRootAt (q ++ t) = none) →
    tryRootAt t = some (b, r) → varFind (pre ++ t) = some (pre, b, r) := by
  intro pre
  induction pre with
  | nil =>
    intro t b r _ ht
    cases t with
    | nil => simp [tryRootAt, rootLit_eq, starts] at ht
    | cons c cs => simp only [List.nil_append, varFind, ht]
  | cons c pt ih =>
    intro t b r hE ht
    have h0 : tryRootAt (c :: (pt ++ t)) = none := by
      have := hE [] (c :: pt) rfl (by simp)
      rwa [List.cons_append] at this
    have h1 : varFind (pt ++ t) = some (pt, b, r) :=
      ih (fun p q hpq hq => hE (c :: p) q (by rw [hpq, List.cons_append]) hq) ht
    rw [List.cons_append]
    simp only [varFind, h0, h1]

theorem dget_isSome_of_mem : ∀ {U : List (String × String)} {kv : String × String},
    kv ∈ U → (dget U kv.1).isSome = true := by
  intro U
  induction U with
  | nil => intro kv h; simp at h
  | cons p rest ih =>
    intro kv h
    by_cases hp : p.1 = kv.1
    · simp [dget, hp]
    · rcases List.mem_cons.mp h with h1 | h1
      · rw [h1] at hp; exact absurd rfl hp
      · simp only [dget, if_neg hp]
        exact ih h1

theorem dget_some_mem : ∀ {U : List (String × String)} {k v : String},
    dget U k = some v → (k, v) ∈ U := by
  intro U
  induction U with
  | nil => intro k v h; simp [dget] at h
  | cons p rest ih =>
    intro k v h
    by_cases hp : p.1 = k
    · simp only [dget, if_pos hp, Option.some.injEq] at h
      have hpe : p = (k, v) := by
        cases p
        simp only [Prod.mk.injEq]
        exact ⟨hp, h⟩
      rw [← hpe]
      exact List.mem_cons_self _ _
    · simp only [dget, if_neg hp] at h
      exact List.mem_cons_of_mem _ (ih h)

theorem dget_nodup : ∀ {U : List (String × String)}, (U.map Prod.fst).Nodup →
    ∀ {k v : String}, (k, v) ∈ U → dget U k = some v := by
  intro U
  induction U with
  | nil => intro _ k v h; simp at h
  | cons p rest ih =>
    intro hnd k v h
    simp only [List.map_cons, List.nodup_cons] at hnd
    rcases List.mem_cons.mp h with h1 | h1
    · rw [← h1]
      simp [dget]
    · have hp : ¬ p.1 = k := by
        intro he
        exact hnd.1 (he ▸ (List.mem_map.mpr ⟨(k, v), h1, rfl⟩))
      simp only [dget, if_neg hp]
      exact ih hnd.2 h1

theorem keyMem_append : ∀ (d e : List (String × String)) (k : String),
    keyMem (d ++ e) k = (keyMem d k || keyMem e k) := by
  intro d e k
  induction d with
  | nil => simp [keyMem]
  | cons p rest ih =>
    by_cases hp : p.1 = k
    · simp [keyMem, hp]
    · simp only [List.cons_append, keyMem, if_neg hp, List.append_eq, ih]

theorem rootFold_append : ∀ (a b : List (List Char)) (d : List (String × String)),
    rootFold (a ++ b) d = rootFold b (rootFold a d) := by
  intro a
  induction a with
  | nil => intro b d; rfl
  | cons s rest ih => intro b d; simp only [List.cons_append, rootFold, List.append_eq, ih]

theorem rootIns_nil (d : List (String × String)) : rootIns d [] = d := rfl

theorem rebuildLoop_eq (U : List (String × String)) : ∀ (segs : List (List Char)),
    rebuildLoop U segs =
      ((segs.filterMap (chSplit ':')).map (fun kv =>
          match dget U ⟨pyStrip kv.1⟩ with
          | some nv => (⟨pyStrip kv.1⟩ : String) ++ ": " ++ nv
          | none => (⟨pyStrip kv.1⟩ : String) ++ ":" ++ (⟨kv.2⟩ : String)),
       ((segs.filterMap (chSplit ':')).map (fun kv => (⟨pyStrip kv.1⟩ : String))).filter
          (fun k => (dget U k).isSome)) := by
  intro segs
  induction segs with
  | nil => rfl
  | cons ln rest ih =>
    simp only [rebuildLoop, List.filterMap_cons]
    cases hspl : chSplit ':' ln with
    | none => simp only [ih]
    | some kv =>
      rw [ih]
      cases hdg : dget U (⟨pyStrip kv.1⟩ : String) with
      | some nv => simp [hdg]
      | none => simp [hdg]

theorem appendLoop_eq (seen : List String) : ∀ (U2 : List (String × String)),
    appendLoop seen U2 =
      (U2.filter (fun kv => !(seen.contains kv.1))).map (fun kv => kv.1 ++ ": " ++ kv.2) := by
  intro U2
  induction U2 with
  | nil => rfl
  | cons kv rest ih =>
    by_cases hc : kv.1 ∈ seen
    · rw [List.filter_cons_of_neg (by simp [hc])]
      simp only [appendLoop, if_pos (show seen.contains kv.1 = true by simpa using hc)]
      exact ih
    · rw [List.filter_cons_of_pos (by simp [hc]), List.map_cons]
      simp only [appendLoop]
      rw [if_neg (fun h => hc (by simpa using h)), ih]

theorem contains_filter_of_pred {l : List String} {p : String → Bool} {k : String}
    (hp : p k = true) : (l.filter p).contains k = l.contains k := by
  by_cases h : k ∈ l
  · have h2 : k ∈ l.filter p := List.mem_filter.mpr ⟨h, hp⟩
    rw [(show (l.filter p).contains k = true by simpa using h2),
        (show l.contains k = true by simpa using h)]
  · have h2 : k ∉ l.filter p := fun hm => h (List.mem_filter.mp hm).1
    have e1 : (l.filter p).contains k = false := by
      cases hcc : (l.filter p).contains k
      · rfl
      · exact absurd (by simpa using hcc) h2
    have e2 : l.contains k = false := by
      cases hcc : l.contains k
      · rfl
      · exact absurd (by simpa using hcc) h
    rw [e1, e2]

theorem rebuild_eq_decl (block : List Char) (U : List (String × String)) :
    rebuildPairs block U = declPairs block U := by
  unfold rebuildPairs declPairs colonSegs strippedKeys
  dsimp only
  rw [rebuildLoop_eq]
  dsimp only
  rw [appendLoop_eq]
  congr 1
  apply congrArg
  apply List.filter_congr
  intro kv hkv
  have hs : (dget U kv.1).isSome = true := dget_isSome_of_mem hkv
  rw [contains_filter_of_pred hs]
  rfl

theorem rootIns_pair_upd {k nv : String} (hK : cleanKey k) (hV : cleanVal nv)
    (d : List (String × String)) :
    rootIns d (k ++ ": " ++ nv).data = dictUpd d k nv := by
  have hdata : (k ++ ": " ++ nv).data = k.data ++ ':' :: (' ' :: nv.data) := by
    simp only [String.data_append, List.append_assoc]
    rfl
  rw [hdata]
  unfold rootIns
  rw [chSplit_app hK.2.2.1]
  dsimp only
  rw [hK.2.1, pyStrip_cons_space (by decide), hV.2.1, if_pos ⟨hK.1, hV.1⟩]

theorem rootIns_pair_pass {kl vl : List Char} (hkl : ':' ∉ pyStrip kl)
    (d : List (String × String)) :
    rootIns d ((⟨pyStrip kl⟩ : String) ++ ":" ++ (⟨vl⟩ : String)).data =
      if starts ddLit (pyStrip kl) ∧ pyStrip vl ≠ [] then
        dictUpd d ⟨pyStrip kl⟩ ⟨pyStrip vl⟩ else d := by
  have hdata : ((⟨pyStrip kl⟩ : String) ++ ":" ++ (⟨vl⟩ : String)).data =
      pyStrip kl ++ ':' :: vl := by
    simp only [String.data_append, List.append_assoc]
    rfl
  rw [hdata]
  unfold rootIns
  rw [chSplit_app hkl]
  dsimp only
  rw [pyStrip_idem]

theorem joinSemi_mem : ∀ (ps : List String) {c : Char}, c ∈ (joinSemi ps).data →
    c = ';' ∨ ∃ p ∈ ps, c ∈ p.data := by
  intro ps
  induction ps with
  | nil =>
    intro c h
    have he : (joinSemi ([] : List String)).data = [] := rfl
    rw [he] at h
    simp at h
  | cons p rest ih =>
    cases rest with
    | nil =>
      intro c h
      right
      exact ⟨p, List.mem_cons_self _ _, h⟩
    | cons q rest2 =>
      intro c h
      have he : (joinSemi (p :: q :: rest2)).data =
          p.data ++ [';'] ++ (joinSemi (q :: rest2)).data := by
        show ((p ++ ";") ++ joinSemi (q :: rest2)).data = _
        rw [String.data_append, String.data_append]
      rw [he] at h
      rcases List.mem_append.mp h with h1 | h1
      · rcases List.mem_append.mp h1 with h2 | h2
        · right; exact ⟨p, List.mem_cons_self _ _, h2⟩
        · left; simpa using h2
      · rcases ih h1 with h2 | h2
        · left; exact h2
        · obtain ⟨p2, hp2, hc2⟩ := h2
          right; exact ⟨p2, List.mem_cons_of_mem _ hp2, hc2⟩

theorem joinSemi_split : ∀ (ps : List String), (∀ p ∈ ps, ';' ∉ p.data) →
    splitSemi (joinSemi ps).data = if ps = [] then [[]] else ps.map String.data := by
  intro ps
  induction ps with
  | nil =>
    intro _
    rw [if_pos rfl]
    rfl
  | cons p rest ih =>
    intro hsemi
    cases rest with
    | nil =>
      rw [if_neg (by simp)]
      exact splitSemi_no (hsemi p (List.mem_cons_self _ _))
    | cons q rest2 =>
      rw [if_neg (by simp)]
      have he : (joinSemi (p :: q :: rest2)).data =
          p.data ++ ';' :: (joinSemi (q :: rest2)).data := by
        show ((p ++ ";") ++ joinSemi (q :: rest2)).data = _
        rw [String.data_append, String.data_append, List.append_assoc]
        rfl
      rw [he, splitSemi_app (hsemi p (List.mem_cons_self _ _))]
      have ih2 := ih (fun p2 hp2 => hsemi p2 (List.mem_cons_of_mem _ hp2))
      rw [if_neg (by simp)] at ih2
      rw [ih2]
      simp

theorem fold_join (ps : List String) (hsemi : ∀ p ∈ ps, ';' ∉ p.data) :
    rootFold (splitSemi (joinSemi ps).data) [] = rootFold (ps.map String.data) [] := by
  rw [joinSemi_split ps hsemi]
  by_cases hps : ps = []
  · subst hps
    rw [if_pos rfl]
    rfl
  · rw [if_neg hps]

theorem colonSegs_mem : ∀ {block : List Char} {kv : List Char × List Char},
    kv ∈ colonSegs block →
    (∀ c, (c ∈ kv.1 ∨ c ∈ kv.2) → c ∈ block ∧ ¬ c = ';') ∧ ':' ∉ kv.1 := by
  intro block kv h
  unfold colonSegs at h
  obtain ⟨seg, hseg, hsp⟩ := List.mem_filterMap.mp h
  obtain ⟨he, hn⟩ := chSplit_sound hsp
  refine ⟨?_, hn⟩
  intro c hcm
  apply splitSemi_mem hseg
  rw [he]
  rcases hcm with h1 | h1
  · exact List.mem_append.mpr (Or.inl h1)
  · exact List.mem_append.mpr (Or.inr (List.mem_cons_of_mem _ h1))

theorem declPairs_chars {block : List Char} {U : List (String × String)} :
    ∀ p ∈ declPairs block U, ∀ {c : Char}, c ∈ p.data →
      c = ':' ∨ c = ' ' ∨ (c ∈ block ∧ ¬ c = ';') ∨
        ∃ kv ∈ U, c ∈ kv.1.data ∨ c ∈ kv.2.data := by
  intro p hp c hc
  unfold declPairs at hp
  rcases List.mem_append.mp hp with h1 | h1
  · obtain ⟨kv, hkv, hpe⟩ := List.mem_map.mp h1
    obtain ⟨hmem, hcol⟩ := colonSegs_mem hkv
    cases hdg : dget U (⟨pyStrip kv.1⟩ : String) with
    | some nv =>
      rw [hdg] at hpe
      rw [← hpe] at hc
      have hdata : ((⟨pyStrip kv.1⟩ : String) ++ ": " ++ nv).data =
          pyStrip kv.1 ++ ':' :: (' ' :: nv.data) := by
        simp only [String.data_append, List.append_assoc]
        rfl
      rw [hdata] at hc
      rcases List.mem_append.mp hc with h2 | h2
      · exact Or.inr (Or.inr (Or.inl (hmem c (Or.inl (pyStrip_mem h2)))))
      · rcases List.mem_cons.mp h2 with h3 | h3
        · exact Or.inl h3
        · rcases List.mem_cons.mp h3 with h4 | h4
          · exact Or.inr (Or.inl h4)
          · exact Or.inr (Or.inr (Or.inr ⟨_, dget_some_mem hdg, Or.inr h4⟩))
    | none =>
      rw [hdg] at hpe
      rw [← hpe] at hc
      have hdata : ((⟨pyStrip kv.1⟩ : String) ++ ":" ++ (⟨kv.2⟩ : String)).data =
          pyStrip kv.1 ++ ':' :: kv.2 := by
        simp only [String.data_append, List.append_assoc]
        rfl
      rw [hdata] at hc
      rcases List.mem_append.mp hc with h2 | h2
      · exact Or.inr (Or.inr (Or.inl (hmem c (Or.inl (pyStrip_mem h2)))))
      · rcases List.mem_cons.mp h2 with h3 | h3
        · exact Or.inl h3
        · exact Or.inr (Or.inr (Or.inl (hmem c (Or.inr h3))))
  · obtain ⟨kv, hkv, hpe⟩ := List.mem_map.mp h1
    have hkvU : kv ∈ U := (List.mem_filter.mp hkv).1
    rw [← hpe] at hc
    have hdata : (kv.1 ++ ": " ++ kv.2).data = kv.1.data ++ ':' :: (' ' :: kv.2.data) := by
      simp only [String.data_append, List.append_assoc]
      rfl
    rw [hdata] at hc
    rcases List.mem_append.mp hc with h2 | h2
    · exact Or.inr (Or.inr (Or.inr ⟨kv, hkvU, Or.inl h2⟩))
    · rcases List.mem_cons.mp h2 with h3 | h3
      · exact Or.inl h3
      · rcases List.mem_cons.mp h3 with h4 | h4
        · exact Or.inr (Or.inl h4)
        · exact Or.inr (Or.inr (Or.inr ⟨kv, hkvU, Or.inr h4⟩))

theorem rebuild_no_brace {block : List Char} {U : List (String × String)}
    (hb : '\x7d' ∉ block) (hU : cleanU U) :
    '\x7d' ∉ (joinSemi (rebuildPairs block U)).data := by
  intro hmem
  rcases joinSemi_mem _ hmem with h | h
  · exact absurd h (by decide)
  · obtain ⟨p, hp, hc⟩ := h
    rw [rebuild_eq_decl] at hp
    rcases declPairs_chars p hp hc with h | h | h | h
    · exact absurd h (by decide)
    · exact absurd h (by decide)
    · exact hb h.1
    · obtain ⟨kv, hkv, h2⟩ := h
      obtain ⟨hck, hcv⟩ := hU.2 kv hkv
      rcases h2 with h3 | h3
      · exact hck.2.2.2.2 h3
      · exact hcv.2.2.2 h3

theorem rebuild_no_semi {block : List Char} {U : List (String × String)} (hU : cleanU U) :
    ∀ p ∈ rebuildPairs block U, ';' ∉ p.data := by
  intro p hp hmem
  rw [rebuild_eq_decl] at hp
  rcases declPairs_chars p hp hmem with h | h | h | h
  · exact absurd h (by decide)
  · exact absurd h (by decide)
  · exact h.2 rfl
  · obtain ⟨kv, hkv, h2⟩ := h
    obtain ⟨hck, hcv⟩ := hU.2 kv hkv
    rcases h2 with h3 | h3
    · exact hck.2.2.2.1 h3
    · exact hcv.2.2.1 h3

theorem headPairs_chars {U : List (String × String)} :
    ∀ p ∈ headPairs U, ∀ {c : Char}, c ∈ p.data →
      c = ':' ∨ ∃ kv ∈ U, c ∈ kv.1.data ∨ c ∈ kv.2.data := by
  intro p hp c hc
  unfold headPairs at hp
  obtain ⟨kv, hkv, hpe⟩ := List.mem_map.mp hp
  rw [← hpe] at hc
  have hdata : (kv.1 ++ ":" ++ kv.2).data = kv.1.data ++ ':' :: kv.2.data := by
    simp only [String.data_append, List.append_assoc]
    rfl
  rw [hdata] at hc
  rcases List.mem_append.mp hc with h2 | h2
  · exact Or.inr ⟨kv, hkv, Or.inl h2⟩
  · rcases List.mem_cons.mp h2 with h3 | h3
    · exact Or.inl h3
    · exact Or.inr ⟨kv, hkv, Or.inr h3⟩

theorem head_no_brace {U : List (String × String)} (hU : cleanU U) :
    '\x7d' ∉ (joinSemi (headPairs U)).data := by
  intro hmem
  rcases joinSemi_mem _ hmem with h | h
  · exact absurd h (by decide)
  · obtain ⟨p, hp, hc⟩ := h
    rcases headPairs_chars p hp hc with h | h
    · exact absurd h (by decide)
    · obtain ⟨kv, hkv, h2⟩ := h
      obtain ⟨hck, hcv⟩ := hU.2 kv hkv
      rcases h2 with h3 | h3
      · exact hck.2.2.2.2 h3
      · exact hcv.2.2.2 h3

theorem head_no_semi {U : List (String × String)} (hU : cleanU U) :
    ∀ p ∈ headPairs U, ';' ∉ p.data := by
  intro p hp hmem
  rcases headPairs_chars p hp hmem with h | h
  · exact absurd h (by decide)
  · obtain ⟨kv, hkv, h2⟩ := h
    obtain ⟨hck, hcv⟩ := hU.2 kv hkv
    rcases h2 with h3 | h3
    · exact hck.2.2.2.1 h3
    · exact hcv.2.2.1 h3

theorem extract_eq_none {css : String} (hv : varFind css.data = none) :
    extract_root_vars css = [] := by
  unfold extract_root_vars
  rw [hv]

theorem extract_eq_some {css : String} {pre block suf : List Char}
    (hv : varFind css.data = some (pre, block, suf)) :
    extract_root_vars css = rootFold (splitSemi block) [] := by
  unfold extract_root_vars
  rw [hv]

theorem replace_eq_some {css : String} {pre block suf : List Char}
    {U : List (String × String)} (hv : varFind css.data = some (pre, block, suf)) :
    replace_root_vars css U =
      (⟨pre⟩ : String) ++ ":root\x7b" ++ joinSemi (rebuildPairs block U) ++ "\x7d" ++
        (⟨suf⟩ : String) := by
  unfold replace_root_vars
  rw [hv]

theorem replace_eq_none {css : String} {U : List (String × String)}
    (hv : varFind css.data = none) :
    replace_root_vars css U = ":root\x7b" ++ joinSemi (headPairs U) ++ "\x7d" ++ css := by
  unfold replace_root_vars
  rw [hv]

theorem replace_data_some {css : String} {pre block suf : List Char}
    {U : List (String × String)} (hv : varFind css.data = some (pre, block, suf)) :
    (replace_root_vars css U).data =
      pre ++ (rootLit ++ '\x7b' :: ((joinSemi (rebuildPairs block U)).data ++ '\x7d' :: suf)) := by
  rw [replace_eq_some hv]
  simp only [String.data_append, List.append_assoc]
  rfl

theorem replace_varFind_some {css : String} {pre block suf : List Char}
    {U : List (String × String)}
    (hv : varFind css.data = some (pre, block, suf)) (hU : cleanU U) :
    varFind (replace_root_vars css U).data =
      some (pre, (joinSemi (rebuildPairs block U)).data, suf) := by
  obtain ⟨t, hts, htt, hte⟩ := varFind_sound hv
  obtain ⟨ws, hws, htd, hnb⟩ := tryRootAt_sound htt
  have hJb : '\x7d' ∉ (joinSemi (rebuildPairs block U)).data := rebuild_no_brace hnb hU
  have hty : tryRootAt (rootLit ++ '\x7b' ::
      ((joinSemi (rebuildPairs block U)).data ++ '\x7d' :: suf)) =
      some ((joinSemi (rebuildPairs block U)).data, suf) := tryRootAt_build hJb
  have hXs : starts rootLit t = true := by
    rw [htd, List.append_assoc]
    exact starts_app _ _
  have hXb : '\x7d' ∈ t := by
    rw [htd]
    refine List.mem_append.mpr (Or.inr (List.mem_cons_of_mem _ ?_))
    exact List.mem_append.mpr (Or.inr (List.mem_cons_self _ _))
  have hYs : starts rootLit (rootLit ++ '\x7b' ::
      ((joinSemi (rebuildPairs block U)).data ++ '\x7d' :: suf)) = true := starts_app _ _
  have hYb : '\x7d' ∈ rootLit ++ '\x7b' ::
      ((joinSemi (rebuildPairs block U)).data ++ '\x7d' :: suf) := by
    refine List.mem_append.mpr (Or.inr (List.mem_cons_of_mem _ ?_))
    exact List.mem_append.mpr (Or.inr (List.mem_cons_self _ _))
  have hteY : ∀ p q, pre = p ++ q → q ≠ [] →
      tryRootAt (q ++ (rootLit ++ '\x7b' ::
        ((joinSemi (rebuildPairs block U)).data ++ '\x7d' :: suf))) = none :=
    fun p q hpq hq => rootT hq hXs hYs hXb hYb (hte p q hpq hq)
  have hvb := varFind_build pre hteY hty
  rw [replace_data_some hv]
  exact hvb

theorem replace_varFind_none {css : String} {U : List (String × String)}
    (hv : varFind css.data = none) (hU : cleanU U) :
    varFind (replace_root_vars css U).data =
      some ([], (joinSemi (headPairs U)).data, css.data) := by
  have hJb : '\x7d' ∉ (joinSemi (headPairs U)).data := head_no_brace hU
  have hty := @tryRootAt_build (joinSemi (headPairs U)).data css.data hJb
  have hvb := varFind_build []
    (fun p q hpq hq => absurd (List.append_eq_nil.mp hpq.symm).2 hq) hty
  have hdata : (replace_root_vars css U).data =
      [] ++ (rootLit ++ '\x7b' :: ((joinSemi (headPairs U)).data ++ '\x7d' :: css.data)) := by
    rw [replace_eq_none hv]
    simp only [String.data_append, List.append_assoc, List.nil_append]
    rfl
  rw [hdata]
  exact hvb

theorem extract_replace_some {css : String} {pre block suf : List Char}
    {U : List (String × String)}
    (hv : varFind css.data = some (pre, block, suf)) (hU : cleanU U) :
    extract_root_vars (replace_root_vars css U) =
      rootFold ((rebuildPairs block U).map String.data) [] := by
  rw [extract_eq_some (replace_varFind_some hv hU)]
  exact fold_join _ (rebuild_no_semi hU)

theorem extract_replace_none {css : String} {U : List (String × String)}
    (hv : varFind css.data = none) (hU : cleanU U) :
    extract_root_vars (replace_root_vars css U) =
      rootFold ((headPairs U).map String.data) [] := by
  rw [extract_eq_some (replace_varFind_none hv hU)]
  exact fold_join _ (head_no_semi hU)

theorem rootIns_pair_head {k nv : String} (hK : cleanKey k) (hV : cleanVal nv)
    (d : List (String × String)) :
    rootIns d (k ++ ":" ++ nv).data = dictUpd d k nv := by
  have hdata : (k ++ ":" ++ nv).data = k.data ++ ':' :: nv.data := by
    simp only [String.data_append, List.append_assoc]
    rfl
  rw [hdata]
  unfold rootIns
  rw [chSplit_app hK.2.2.1]
  dsimp only
  rw [hK.2.1, hV.2.1, if_pos ⟨hK.1, hV.1⟩]

theorem fold_fresh : ∀ (U2 : List (String × String)) (d : List (String × String)),
    (∀ kv ∈ U2, keyMem d kv.1 = false) → (U2.map Prod.fst).Nodup →
    (∀ kv ∈ U2, cleanKey kv.1 ∧ cleanVal kv.2) →
    rootFold ((U2.map (fun kv => kv.1 ++ ":" ++ kv.2)).map String.data) d = d ++ U2 := by
  intro U2
  induction U2 with
  | nil => intro d _ _ _; simp [rootFold]
  | cons kv rest ih =>
    intro d hf hnd hcl
    simp only [List.map_cons, rootFold]
    have hck := (hcl kv (List.mem_cons_self _ _)).1
    have hcv := (hcl kv (List.mem_cons_self _ _)).2
    have hupd : rootIns d (kv.1 ++ ":" ++ kv.2).data = d ++ [kv] := by
      rw [rootIns_pair_head hck hcv]
      unfold dictUpd
      rw [if_neg (by simp [hf kv (List.mem_cons_self _ _)])]
    rw [hupd]
    simp only [List.map_cons, List.nodup_cons] at hnd
    have hrest : ∀ kv2 ∈ rest, keyMem (d ++ [kv]) kv2.1 = false := by
      intro kv2 h2
      rw [keyMem_append]
      have h3 : keyMem d kv2.1 = false := hf kv2 (List.mem_cons_of_mem _ h2)
      have h4 : keyMem [kv] kv2.1 = false := by
        have hne : ¬ kv.1 = kv2.1 := by
          intro he
          exact hnd.1 (he ▸ List.mem_map.mpr ⟨kv2, h2, rfl⟩)
        simp [keyMem, hne]
      rw [h3, h4]
      rfl
    rw [ih (d ++ [kv]) hrest hnd.2 (fun kv2 h2 => hcl kv2 (List.mem_cons_of_mem _ h2)),
        List.append_assoc]
    rfl

theorem nomatch_exact {css : String} {U : List (String × String)}
    (hv : varFind css.data = none) (hU : cleanU U) :
    extract_root_vars (replace_root_vars css U) = U := by
  rw [extract_replace_none hv hU]
  unfold headPairs
  have h := fold_fresh U [] (fun kv _ => rfl) hU.1 (fun kv h => hU.2 kv h)
  exact h.trans (List.nil_append U)

theorem mem_key_ne_of_dget_none {U : List (String × String)} {kv : String × String}
    {k : String} (hk : dget U k = none) (hm : kv ∈ U) : ¬ kv.1 = k := by
  intro he
  have h := dget_isSome_of_mem hm
  rw [he, hk] at h
  simp at h

theorem fold_pres (k : String) : ∀ (segs : List (List Char)) (d : List (String × String)),
    (∀ s ∈ segs, ∀ d2, dget (rootIns d2 s) k = dget d2 k) →
    dget (rootFold segs d) k = dget d k := by
  intro segs
  induction segs with
  | nil => intro d _; rfl
  | cons s rest ih =>
    intro d h
    simp only [rootFold]
    rw [ih _ (fun s2 hs2 => h s2 (List.mem_cons_of_mem _ hs2)), h s (List.mem_cons_self _ _)]

theorem fold_set (k vU : String) : ∀ (segs : List (List Char)) (d : List (String × String)),
    dget d k = some vU →
    (∀ s ∈ segs, (∀ d2, dget (rootIns d2 s) k = some vU) ∨
                 (∀ d2, dget (rootIns d2 s) k = dget d2 k)) →
    dget (rootFold segs d) k = some vU := by
  intro segs
  induction segs with
  | nil => intro d hd _; exact hd
  | cons s rest ih =>
    intro d hd h
    simp only [rootFold]
    apply ih
    · rcases h s (List.mem_cons_self _ _) with h1 | h1
      · exact h1 d
      · rw [h1 d]; exact hd
    · exact fun s2 hs2 => h s2 (List.mem_cons_of_mem _ hs2)

theorem fold_set_of_mem (k vU : String) : ∀ (segs : List (List Char))
    (d : List (String × String)),
    (∀ s ∈ segs, (∀ d2, dget (rootIns d2 s) k = some vU) ∨
                 (∀ d2, dget (rootIns d2 s) k = dget d2 k)) →
    (∃ s ∈ segs, ∀ d2, dget (rootIns d2 s) k = some vU) →
    dget (rootFold segs d) k = some vU := by
  intro segs
  induction segs with
  | nil =>
    intro d _ hex
    simp at hex
  | cons s rest ih =>
    intro d hall hex
    obtain ⟨s2, hs2, hset⟩ := hex
    simp only [rootFold]
    rcases List.mem_cons.mp hs2 with h1 | h1
    · apply fold_set
      · rw [← h1]; exact hset d
      · exact fun s3 hs3 => hall s3 (List.mem_cons_of_mem _ hs3)
    · exact ih (rootIns d s) (fun s3 hs3 => hall s3 (List.mem_cons_of_mem _ hs3)) ⟨s2, h1, hset⟩

theorem part2core {U : List (String × String)} {k : String} (hU : cleanU U)
    (hk : dget U k = none) :
    ∀ (segs : List (List Char)) (d1 d2 : List (String × String)),
    dget d1 k = dget d2 k →
    dget (rootFold segs d1) k =
      dget (rootFold ((rebuildLoop U segs).1.map String.data) d2) k := by
  intro segs
  induction segs with
  | nil => intro d1 d2 h; exact h
  | cons ln rest ih =>
    intro d1 d2 h
    simp only [rootFold, rebuildLoop]
    cases hspl : chSplit ':' ln with
    | none =>
      have h1 : rootIns d1 ln = d1 := by
        unfold rootIns
        rw [hspl]
      rw [h1]
      exact ih d1 d2 h
    | some kv =>
      dsimp only
      cases hdg : dget U (⟨pyStrip kv.1⟩ : String) with
      | some nv =>
        dsimp only
        simp only [List.map_cons, rootFold]
        have hkey_ne : ¬ (⟨pyStrip kv.1⟩ : String) = k := by
          intro he
          rw [he, hk] at hdg
          exact Option.noConfusion hdg
        have hmemU := dget_some_mem hdg
        have hck : cleanKey (⟨pyStrip kv.1⟩ : String) := (hU.2 _ hmemU).1
        have hcv : cleanVal nv := (hU.2 _ hmemU).2
        rw [rootIns_pair_upd hck hcv]
        apply ih
        rw [dget_upd_ne _ _ _ _ (fun h2 => hkey_ne h2.symm)]
        have hins : dget (rootIns d1 ln) k = dget d1 k := by
          unfold rootIns
          rw [hspl]
          dsimp only
          by_cases hcond : starts ddLit (pyStrip kv.1) = true ∧ pyStrip kv.2 ≠ []
          · rw [if_pos hcond, dget_upd_ne _ _ _ _ (fun h2 => hkey_ne h2.symm)]
          · rw [if_neg hcond]
        rw [hins, h]
      | none =>
        dsimp only
        simp only [List.map_cons, rootFold]
        have hkl : ':' ∉ pyStrip kv.1 := fun hm2 => (chSplit_sound hspl).2 (pyStrip_mem hm2)
        rw [rootIns_pair_pass hkl]
        have hlhs : rootIns d1 ln =
            if starts ddLit (pyStrip kv.1) ∧ pyStrip kv.2 ≠ [] then
              dictUpd d1 ⟨pyStrip kv.1⟩ ⟨pyStrip kv.2⟩ else d1 := by
          unfold rootIns
          rw [hspl]
        rw [hlhs]
        apply ih
        by_cases hcond : starts ddLit (pyStrip kv.1) = true ∧ pyStrip kv.2 ≠ []
        · rw [if_pos hcond, if_pos hcond]
          by_cases hkk : (⟨pyStrip kv.1⟩ : String) = k
          · rw [hkk, dget_upd_self, dget_upd_self]
          · rw [dget_upd_ne _ _ _ _ (fun h2 => hkk h2.symm), dget_upd_ne _ _ _ _ (fun h2 => hkk h2.symm), h]
        · rw [if_neg hcond, if_neg hcond]
          exact h

theorem part1all {block : List Char} {U : List (String × String)} {k vU : String}
    (hU : cleanU U) (hk : dget U k = some vU) :
    ∀ s ∈ (rebuildPairs block U).map String.data,
      (∀ d2, dget (rootIns d2 s) k = some vU) ∨
      (∀ d2, dget (rootIns d2 s) k = dget d2 k) := by
  intro s hs
  obtain ⟨p, hp, hpd⟩ := List.mem_map.mp hs
  rw [rebuild_eq_decl] at hp
  unfold declPairs at hp
  rcases List.mem_append.mp hp with h1 | h1
  · obtain ⟨kv, hkv, hpe⟩ := List.mem_map.mp h1
    cases hdg : dget U (⟨pyStrip kv.1⟩ : String) with
    | some nv =>
      rw [hdg] at hpe
      have hmem := dget_some_mem hdg
      have hck : cleanKey (⟨pyStrip kv.1⟩ : String) := (hU.2 _ hmem).1
      have hcv : cleanVal nv := (hU.2 _ hmem).2
      by_cases hkk : (⟨pyStrip kv.1⟩ : String) = k
      · left
        intro d2
        have hnveq : nv = vU := by
          rw [hkk] at hdg
          rw [hdg] at hk
          exact Option.some.inj hk
        rw [← hpd, ← hpe, rootIns_pair_upd hck hcv, hkk, hnveq, dget_upd_self]
      · right
        intro d2
        rw [← hpd, ← hpe, rootIns_pair_upd hck hcv, dget_upd_ne _ _ _ _ (fun h2 => hkk h2.symm)]
    | none =>
      rw [hdg] at hpe
      have hkk : ¬ (⟨pyStrip kv.1⟩ : String) = k := by
        intro he
        rw [he, hk] at hdg
        exact Option.noConfusion hdg
      right
      intro d2
      have hkl : ':' ∉ pyStrip kv.1 := fun hm2 => (colonSegs_mem hkv).2 (pyStrip_mem hm2)
      rw [← hpd, ← hpe, rootIns_pair_pass hkl]
      by_cases hcond : starts ddLit (pyStrip kv.1) = true ∧ pyStrip kv.2 ≠ []
      · rw [if_pos hcond, dget_upd_ne _ _ _ _ (fun h2 => hkk h2.symm)]
      · rw [if_neg hcond]
  · obtain ⟨kv, hkv, hpe⟩ := List.mem_map.mp h1
    have hkvU : kv ∈ U := (List.mem_filter.mp hkv).1
    have hck : cleanKey kv.1 := (hU.2 _ hkvU).1
    have hcv : cleanVal kv.2 := (hU.2 _ hkvU).2
    by_cases hkk : kv.1 = k
    · left
      intro d2
      have hveq : kv.2 = vU := by
        have hkvq : (k, kv.2) ∈ U := by
          have : kv = (k, kv.2) := by
            cases kv
            simp only [Prod.mk.injEq]
            exact ⟨hkk, trivial⟩
          rw [← this]
          exact hkvU
        have h2 := dget_nodup hU.1 hkvq
        rw [h2] at hk
        exact Option.some.inj hk
      rw [← hpd, ← hpe, rootIns_pair_upd hck hcv, hkk, hveq, dget_upd_self]
    · right
      intro d2
      rw [← hpd, ← hpe, rootIns_pair_upd hck hcv, dget_upd_ne _ _ _ _ (fun h2 => hkk h2.symm)]

theorem part1ex {block : List Char} {U : List (String × String)} {k vU : String}
    (hU : cleanU U) (hk : dget U k = some vU) :
    ∃ s ∈ (rebuildPairs block U).map String.data,
      ∀ d2, dget (rootIns d2 s) k = some vU := by
  have hmem := dget_some_mem hk
  have hck : cleanKey k := (hU.2 _ hmem).1
  have hcv : cleanVal vU := (hU.2 _ hmem).2
  refine ⟨(k ++ ": " ++ vU).data, ?_, fun d2 => by
    rw [rootIns_pair_upd hck hcv, dget_upd_self]⟩
  apply List.mem_map.mpr
  refine ⟨k ++ ": " ++ vU, ?_, rfl⟩
  rw [rebuild_eq_decl]
  unfold declPairs
  by_cases hc : (strippedKeys block).contains k = true
  · have hmk : k ∈ strippedKeys block := by simpa using hc
    unfold strippedKeys at hmk
    obtain ⟨kv, hkv, hke⟩ := List.mem_map.mp hmk
    refine List.mem_append.mpr (Or.inl (List.mem_map.mpr ⟨kv, hkv, ?_⟩))
    rw [hke, hk]
  · refine List.mem_append.mpr (Or.inr (List.mem_map.mpr
      ⟨(k, vU), List.mem_filter.mpr ⟨hmem, ?_⟩, rfl⟩))
    have hcf : (strippedKeys block).contains k = false := Bool.eq_false_iff.mpr hc
    show (!((strippedKeys block).contains k)) = true
    rw [hcf]
    rfl

theorem append_pres {U : List (String × String)} {k : String} (hU : cleanU U)
    (hk : dget U k = none) (seen : List String) :
    ∀ s ∈ (appendLoop seen U).map String.data, ∀ d2,
      dget (rootIns d2 s) k = dget d2 k := by
  intro s hs d2
  rw [appendLoop_eq] at hs
  obtain ⟨p, hp, hpd⟩ := List.mem_map.mp hs
  obtain ⟨kv, hkv, hpe⟩ := List.mem_map.mp hp
  have hkvU : kv ∈ U := (List.mem_filter.mp hkv).1
  rw [← hpd, ← hpe, rootIns_pair_upd (hU.2 _ hkvU).1 (hU.2 _ hkvU).2]
  exact dget_upd_ne _ _ _ _ (fun h2 => (mem_key_ne_of_dget_none hk hkvU) h2.symm)

theorem rebuildPairs_decomp (block : List Char) (U : List (String × String)) :
    (rebuildPairs block U).map String.data =
      ((rebuildLoop U (splitSemi block)).1.map String.data) ++
      ((appendLoop (rebuildLoop U (splitSemi block)).2 U).map String.data) := by
  unfold rebuildPairs
  dsimp only
  rw [List.map_append]

/-! ### Claims about the token extractor/rewriter -/

/-- Claim C1, counterexample to the statement as written: the mapping
`[("--a", "1;2")]` is a valid token mapping in the claim's sense (key starts
with the reserved `--` prefix, value nonempty), yet extracting after applying
it does not map `--a` back to `1;2` — the `;` inside the value is parsed as a
declaration separator. -/
theorem c1_cex :
    dget (extract_root_vars (replace_root_vars ("") [("--a", "1;2")])) ("--a") ≠
      some ("1;2") := by decide

/-- Claim C1 (amended): restricted to update mappings whose keys and values
survive the `:root` grammar (distinct keys starting with `--`,
strip-invariant, keys free of `:`, `;` and the closing brace, values nonempty,
strip-invariant and free of `;` and the closing brace), the round-trip holds
for every CSS string: extraction after `replace_root_vars` maps every key of
`U` to its value in `U`, and maps every token key of the original CSS that is
not a key of `U` to its original value. -/
theorem c1_roundtrip (css : String) (U : List (String × String)) (hU : cleanU U) :
    (∀ kv ∈ U, dget (extract_root_vars (replace_root_vars css U)) kv.1 = some kv.2) ∧
    (∀ k v, dget (extract_root_vars css) k = some v → dget U k = none →
      dget (extract_root_vars (replace_root_vars css U)) k = some v) := by
  constructor
  · intro kv hkv
    obtain ⟨k0, v0⟩ := kv
    have hk : dget U k0 = some v0 := dget_nodup hU.1 hkv
    cases hv : varFind css.data with
    | none =>
      rw [nomatch_exact hv hU]
      exact hk
    | some q =>
      obtain ⟨pre, block, suf⟩ := q
      rw [extract_replace_some hv hU]
      exact fold_set_of_mem k0 v0 _ [] (part1all hU hk) (part1ex hU hk)
  · intro k v hvv hknone
    cases hv : varFind css.data with
    | none =>
      rw [extract_eq_none hv] at hvv
      exact absurd hvv (by simp [dget])
    | some q =>
      obtain ⟨pre, block, suf⟩ := q
      rw [extract_eq_some hv] at hvv
      rw [extract_replace_some hv hU, rebuildPairs_decomp, rootFold_append]
      rw [fold_pres k _ _ (append_pres hU hknone _)]
      rw [← part2core hU hknone (splitSemi block) [] [] rfl]
      exact hvv

/-- Witness for the amended C1: a stylesheet with a preceding rule and a
two-token root block, updating one token and reading back both. -/
theorem c1_wit :
    dget (extract_root_vars (replace_root_vars
        ("a\x7bcolor:red\x7d :root\x7b--a:1;--b:2\x7d t") [("--a", "9")])) ("--a") =
      some ("9") ∧
    dget (extract_root_vars (replace_root_vars
        ("a\x7bcolor:red\x7d :root\x7b--a:1;--b:2\x7d t") [("--a", "9")])) ("--b") =
      some ("2") :=
  ⟨(c1_roundtrip ("a\x7bcolor:red\x7d :root\x7b--a:1;--b:2\x7d t") [("--a", "9")]
      (by decide)).1 ("--a", "9") (by decide),
   (c1_roundtrip ("a\x7bcolor:red\x7d :root\x7b--a:1;--b:2\x7d t") [("--a", "9")]
      (by decide)).2 ("--b") ("2") (by decide) (by decide)⟩

/-- Claim C3, counterexample to the statement as written: with an empty
update mapping no declaration key is in the updates, yet the single
declaration of `:root\x7b --a: red\x7d` does not keep its text — its key is
whitespace-stripped when the block is reassembled. -/
theorem c3_cex :
    replace_root_vars (":root\x7b --a: red\x7d") [] ≠ ":root\x7b --a: red\x7d" := by decide

/-- Claim C3 (amended): `replace_root_vars` rewrites only the first `:root`
block and does not alter any text outside it (prefix and suffix are preserved
verbatim); inside the block, the colon-containing declarations are kept in
their original order, each either replaced (`key: newValue`) when its
stripped key is in the updates or re-emitted as
`strippedKey:originalValueText` (key whitespace normalized away, value text
preserved), colon-free segments are dropped, and update keys that did not
occur are appended at the end. -/
theorem c3_frame (css : String) (U : List (String × String)) (pre block suf : List Char)
    (hv : varFind css.data = some (pre, block, suf)) :
    replace_root_vars css U =
      (⟨pre⟩ : String) ++ ":root\x7b" ++ joinSemi (declPairs block U) ++ "\x7d" ++
        (⟨suf⟩ : String) := by
  rw [replace_eq_some hv, rebuild_eq_decl]

/-- Witness for the amended C3 at a concrete stylesheet: prefix `A `, one
pass-through declaration, one replaced declaration, one appended update,
suffix ` Z`. -/
theorem c3_wit :
    replace_root_vars ("A :root\x7b --a: red;q:2\x7d Z") [("--b", "8px")] =
      (⟨("A " : String).data⟩ : String) ++ ":root\x7b" ++
        joinSemi (declPairs ((" --a: red;q:2" : String).data) [("--b", "8px")]) ++ "\x7d" ++
        (⟨(" Z" : String).data⟩ : String) :=
  c3_frame ("A :root\x7b --a: red;q:2\x7d Z") [("--b", "8px")]
    (("A " : String).data) ((" --a: red;q:2" : String).data) ((" Z" : String).data)
    (by decide)

/-- Claim C9, counterexample to the statement as written: the mapping
`[("--b", " red")]` is valid in the claim's sense (key starts with `--`,
value nonempty), the CSS has no `:root` block, yet extraction of the result
is not exactly `U` — the value is stripped on re-extraction. -/
theorem c9_cex :
    extract_root_vars (replace_root_vars ("body\x7bcolor:red\x7d") [("--b", " red")]) ≠
      [("--b", " red")] := by decide

/-- Claim C9 (amended): for CSS with no `:root` block and a clean update
mapping (distinct `--` keys, strip-invariant and delimiter-free keys and
values, values nonempty), `replace_root_vars` prepends a synthesized block:
extracting tokens from the result returns exactly `U`, and the original CSS
text is preserved after the block. -/
theorem c9_exact (css : String) (U : List (String × String))
    (hv : varFind css.data = none) (hU : cleanU U) :
    extract_root_vars (replace_root_vars css U) = U ∧
    replace_root_vars css U = (":root\x7b" ++ joinSemi (headPairs U) ++ "\x7d") ++ css :=
  ⟨nomatch_exact hv hU, by rw [replace_eq_none hv]⟩

/-- Witness for the amended C9 at a concrete stylesheet with two tokens. -/
theorem c9_wit :
    extract_root_vars (replace_root_vars ("body\x7bcolor:red\x7d")
        [("--b", "red"), ("--r", "8px")]) = [("--b", "red"), ("--r", "8px")] :=
  (c9_exact ("body\x7bcolor:red\x7d") [("--b", "red"), ("--r", "8px")]
    (by decide) (by decide)).1

/-! ### Claims about the sanitizer -/

/-- Claim C2, counterexample to idempotence as stated: removing the first
inline-handler attribute from this input splices ` o` and `nx="y"` into a new
handler attribute, so a second sanitization removes more text. -/
theorem c2_cex :
    sanitize_html (sanitize_html (" o onq=\"z\"nx=\"y\"")) ≠
      sanitize_html (" o onq=\"z\"nx=\"y\"") := by decide

/-- Claim C2 (amended): sanitize_html is idempotent on every input whose
sanitized output contains no residual match of either pattern (no script
block and no inline-handler attribute at any position of the output); in
general a second application can remove further content spliced together by
the first removal. -/
theorem c2_idem (html : String)
    (h1 : scanFirst matchScriptAt (sanitize_html html).data = none)
    (h2 : scanFirst matchOnAt (sanitize_html html).data = none) :
    sanitize_html (sanitize_html html) = sanitize_html html := by
  set t := sanitize_html html with ht
  unfold sanitize_html
  dsimp only
  rw [subAllF_id _ h1, subAllF_id _ h2]

/-- Witness for the amended C2: sanitizing clean markup twice equals
sanitizing it once. -/
theorem c2_wit :
    sanitize_html (sanitize_html ("<p>hi</p>")) = sanitize_html ("<p>hi</p>") :=
  c2_idem ("<p>hi</p>") (by decide) (by decide)

/-- Claim C6, counterexample: the claimed output `<p >hi</p>` is not produced
— the leading `\s` of the handler pattern consumes the space before the
attribute, so no space remains. -/
theorem c6_cex : sanitize_html ("<p onclick=\x27x\x27>hi</p>") ≠ "<p >hi</p>" := by decide

/-- Claim C6 (amended): sanitizing `<p onclick='x'>hi</p>` yields `<p>hi</p>`
— the event attribute and the whitespace character before it are both
removed. -/
theorem c6_actual : sanitize_html ("<p onclick=\x27x\x27>hi</p>") = "<p>hi</p>" := by decide

/-! ### Claims about the content patchers -/

/-- Claim C4 (code bug): the replacement text is not inserted literally. The
source builds the replacement template as `re.escape(new_text)`, so every
regex-special character of the text (dots, spaces, punctuation) acquires a
spurious backslash in the output. Evaluating the embedded patcher: replacing
the heading text of `<h1>Old</h1>` with `a.b` yields `<h1>a\.b</h1>`, not the
claimed `<h1>a.b</h1>`; the claim's plain-alphanumeric example `New` does
work. -/
theorem c4_escape_eval :
    replace_first_h1 ("<h1>Old</h1>") ("a.b") = "<h1>a\\.b</h1>" ∧
    replace_first_h1 ("<h1>Old</h1>") ("a.b") ≠ "<h1>a.b</h1>" ∧
    replace_first_h1 ("<h1>Old</h1>") ("New") = "<h1>New</h1>" := by decide

theorem scanFirst_sound {α : Type} {m : List Char → Option α} :
    ∀ {s pre : List Char} {a : α}, scanFirst m s = some (pre, a) →
    ∃ t, s = pre ++ t ∧ m t = some a := by
  intro s
  induction s with
  | nil =>
    intro pre a h
    simp only [scanFirst] at h
    cases hm : m [] with
    | none => rw [hm] at h; simp at h
    | some a2 =>
      rw [hm] at h
      simp only [Option.some.injEq, Prod.mk.injEq] at h
      obtain ⟨h1, h2⟩ := h
      exact ⟨[], by rw [← h1, List.append_nil], by rw [hm, h2]⟩
  | cons c cs ih =>
    intro pre a h
    simp only [scanFirst] at h
    cases hm : m (c :: cs) with
    | some a2 =>
      rw [hm] at h
      simp only [Option.some.injEq, Prod.mk.injEq] at h
      obtain ⟨h1, h2⟩ := h
      exact ⟨c :: cs, by rw [← h1, List.nil_append], by rw [hm, h2]⟩
    | none =>
      rw [hm] at h
      cases hs : scanFirst m cs with
      | none => rw [hs] at h; simp at h
      | some pa =>
        rw [hs] at h
        simp only [Option.some.injEq, Prod.mk.injEq] at h
        obtain ⟨h1, h2⟩ := h
        obtain ⟨t, ht1, ht2⟩ := @ih pa.1 pa.2 (by rw [hs])
        refine ⟨t, ?_, by rw [ht2, h2]⟩
        rw [← h1, List.cons_append, ← ht1]

theorem ciSeek_sound {pat : List Char} : ∀ {s p mt r : List Char},
    ciSeek pat s = some (p, mt, r) → s = p ++ mt ++ r := by
  intro s
  induction s with
  | nil => intro p mt r h; simp [ciSeek] at h
  | cons c cs ih =>
    intro p mt r h
    simp only [ciSeek] at h
    by_cases hl : lcStarts pat (c :: cs) = true
    · rw [if_pos hl] at h
      simp only [Option.some.injEq, Prod.mk.injEq] at h
      obtain ⟨h1, h2, h3⟩ := h
      rw [← h1, ← h2, ← h3, List.nil_append, List.take_append_drop]
    · rw [if_neg hl] at h
      cases hs : ciSeek pat cs with
      | none => rw [hs] at h; simp at h
      | some q =>
        rw [hs] at h
        simp only [Option.some.injEq, Prod.mk.injEq] at h
        obtain ⟨h1, h2, h3⟩ := h
        have hs2 : ciSeek pat cs = some (q.1, q.2.1, q.2.2) := by rw [hs]
        have he := ih hs2
        rw [← h1, ← h2, ← h3, List.cons_append, List.cons_append, ← he]

theorem occSplit_sound {pat : List Char} : ∀ {s p r : List Char},
    occSplit pat s = some (p, r) → s = p ++ pat ++ r := by
  intro s
  induction s with
  | nil =>
    intro p r h
    simp only [occSplit] at h
    by_cases hp : pat = []
    · rw [if_pos hp] at h
      simp only [Option.some.injEq, Prod.mk.injEq] at h
      obtain ⟨h1, h2⟩ := h
      rw [← h1, ← h2, hp]
      rfl
    · rw [if_neg hp] at h
      simp at h
  | cons c cs ih =>
    intro p r h
    simp only [occSplit] at h
    by_cases hst : starts pat (c :: cs) = true
    · rw [if_pos hst] at h
      simp only [Option.some.injEq, Prod.mk.injEq] at h
      obtain ⟨h1, h2⟩ := h
      obtain ⟨R, hR⟩ := starts_ex hst
      have hdrop : List.drop pat.length (c :: cs) = R := by
        rw [hR, List.drop_left]
      rw [← h1, ← h2, hdrop, List.nil_append, hR]
    · rw [if_neg hst] at h
      cases hs : occSplit pat cs with
      | none => rw [hs] at h; simp at h
      | some q =>
        rw [hs] at h
        simp only [Option.some.injEq, Prod.mk.injEq] at h
        obtain ⟨h1, h2⟩ := h
        have hs2 : occSplit pat cs = some (q.1, q.2) := by rw [hs]
        have he := ih hs2
        rw [← h1, ← h2, List.cons_append, List.cons_append, ← he]

theorem matchH1At_sound {s opn inner cls rest : List Char}
    (h : matchH1At s = some (opn, inner, cls, rest)) :
    s = opn ++ inner ++ cls ++ rest := by
  unfold matchH1At at h
  by_cases hl : lcStarts h1Open s = true
  · rw [if_pos hl] at h
    cases har : chSplit '>' (List.drop 3 s) with
    | none => rw [har] at h; simp at h
    | some ar =>
      rw [har] at h
      dsimp only at h
      cases hq : ciSeek h1Close ar.2 with
      | none => rw [hq] at h; simp at h
      | some q =>
        rw [hq] at h
        dsimp only at h
        simp only [Option.some.injEq, Prod.mk.injEq] at h
        obtain ⟨h1, h2, h3, h4⟩ := h
        obtain ⟨he, _⟩ := chSplit_sound har
        have hq2 : ciSeek h1Close ar.2 = some (q.1, q.2.1, q.2.2) := by rw [hq]
        have hseek := ciSeek_sound hq2
        rw [← h1, ← h2, ← h3, ← h4]
        conv_lhs => rw [← List.take_append_drop 3 s, he, hseek]
        simp [List.append_assoc]
  · rw [if_neg hl] at h; simp at h

theorem matchSubTag_sound {tagTxt after opn inner cls rest : List Char}
    (h : matchSubTag tagTxt after = some (opn, inner, cls, rest)) :
    '<' :: (tagTxt ++ after) = opn ++ inner ++ cls ++ rest := by
  unfold matchSubTag at h
  by_cases hw : List.takeWhile pySpace after = []
  · rw [if_pos hw] at h; simp at h
  · rw [if_neg hw] at h
    dsimp only at h
    by_cases hcl : lcStarts classEq (List.dropWhile pySpace after) = true
    · rw [if_pos hcl] at h
      cases hd6 : List.drop 6 (List.dropWhile pySpace after) with
      | nil => rw [hd6] at h; simp at h
      | cons q1 u3 =>
        rw [hd6] at h
        dsimp only at h
        by_cases hq1 : quoteCh q1 = true
        · rw [if_pos hq1] at h
          cases hcw : classWordLen u3 with
          | none => rw [hcw] at h; simp at h
          | some n =>
            rw [hcw] at h
            dsimp only at h
            cases hdn : List.drop n u3 with
            | nil => rw [hdn] at h; simp at h
            | cons q2 u5 =>
              rw [hdn] at h
              dsimp only at h
              by_cases hq2 : quoteCh q2 = true
              · rw [if_pos hq2] at h
                cases har : chSplit '>' u5 with
                | none => rw [har] at h; simp at h
                | some ar =>
                  rw [har] at h
                  dsimp only at h
                  cases hqq : ciSeek ('<' :: '/' :: (tagTxt.map Char.toLower) ++ ['>']) ar.2 with
                  | none => rw [hqq] at h; simp at h
                  | some qq =>
                    rw [hqq] at h
                    dsimp only at h
                    simp only [Option.some.injEq, Prod.mk.injEq] at h
                    obtain ⟨h1, h2, h3, h4⟩ := h
                    obtain ⟨he5, _⟩ := chSplit_sound har
                    have hqq2 : ciSeek ('<' :: '/' :: (tagTxt.map Char.toLower) ++ ['>']) ar.2 =
                        some (qq.1, qq.2.1, qq.2.2) := by rw [hqq]
                    have hseek := ciSeek_sound hqq2
                    have hafter : after =
                        List.takeWhile pySpace after ++ List.dropWhile pySpace after :=
                      (List.takeWhile_append_dropWhile (p := pySpace) (l := after)).symm
                    have hu : List.dropWhile pySpace after =
                        List.take 6 (List.dropWhile pySpace after) ++ q1 :: u3 := by
                      conv_lhs => rw [← List.take_append_drop 6 (List.dropWhile pySpace after)]
                      rw [hd6]
                    have hu3 : u3 = List.take n u3 ++ q2 :: u5 := by
                      conv_lhs => rw [← List.take_append_drop n u3]
                      rw [hdn]
                    rw [← h1, ← h2, ← h3, ← h4]
                    conv_lhs => rw [hafter, hu, hu3, he5, hseek]
                    simp [List.append_assoc]
              · rw [if_neg hq2] at h; simp at h
        · rw [if_neg hq1] at h; simp at h
    · rw [if_neg hcl] at h; simp at h

theorem matchSubAt_sound {s opn inner cls rest : List Char}
    (h : matchSubAt s = some (opn, inner, cls, rest)) :
    s = opn ++ inner ++ cls ++ rest := by
  cases s with
  | nil => simp [matchSubAt] at h
  | cons c s1 =>
    simp only [matchSubAt] at h
    by_cases hc : c = '<'
    · rw [if_pos hc] at h
      by_cases hp : lcStarts pLit s1 = true
      · rw [if_pos hp] at h
        have hst := matchSubTag_sound h
        rw [List.take_append_drop] at hst
        rw [hc]
        exact hst
      · by_cases hd : lcStarts divLit s1 = true
        · rw [if_neg hp, if_pos hd] at h
          have hst := matchSubTag_sound h
          rw [List.take_append_drop] at hst
          rw [hc]
          exact hst
        · rw [if_neg hp, if_neg hd] at h; simp at h
    · rw [if_neg hc] at h; simp at h

theorem h1Find_sound {s pre opn inner cls rest : List Char}
    (h : h1Find s = some (pre, opn, inner, cls, rest)) :
    s = pre ++ opn ++ inner ++ cls ++ rest := by
  unfold h1Find at h
  cases hs : scanFirst matchH1At s with
  | none => rw [hs] at h; simp at h
  | some pq =>
    rw [hs] at h
    simp only [Option.some.injEq, Prod.mk.injEq] at h
    obtain ⟨h1, h2, h3, h4, h5⟩ := h
    obtain ⟨t, ht1, ht2⟩ := scanFirst_sound hs
    have ht3 : matchH1At t = some (pq.2.1, pq.2.2.1, pq.2.2.2.1, pq.2.2.2.2) := by rw [ht2]
    have hm := matchH1At_sound ht3
    rw [← h1, ← h2, ← h3, ← h4, ← h5, ht1, hm]
    simp [List.append_assoc]

theorem subFind_sound {s pre opn inner cls rest : List Char}
    (h : subFind s = some (pre, opn, inner, cls, rest)) :
    s = pre ++ opn ++ inner ++ cls ++ rest := by
  unfold subFind at h
  cases hs : scanFirst matchSubAt s with
  | none => rw [hs] at h; simp at h
  | some pq =>
    rw [hs] at h
    simp only [Option.some.injEq, Prod.mk.injEq] at h
    obtain ⟨h1, h2, h3, h4, h5⟩ := h
    obtain ⟨t, ht1, ht2⟩ := scanFirst_sound hs
    have ht3 : matchSubAt t = some (pq.2.1, pq.2.2.1, pq.2.2.2.1, pq.2.2.2.2) := by rw [ht2]
    have hm := matchSubAt_sound ht3
    rw [← h1, ← h2, ← h3, ← h4, ← h5, ht1, hm]
    simp [List.append_assoc]

/-- Claim C8 (confirmed): both content patchers return the input unchanged
when no match exists; when a match exists, only the first match is rewritten
— the input decomposes as prefix, match, suffix, and the suffix (containing
any later duplicates) is carried into the output verbatim. -/
theorem c8_noop (html t : String) :
    (h1Find html.data = none → replace_first_h1 html t = html) ∧
    (subFind html.data = none → replace_subtext html t = html) ∧
    (∀ pre opn inner cls rest,
      h1Find html.data = some (pre, opn, inner, cls, rest) →
      html.data = pre ++ opn ++ inner ++ cls ++ rest ∧
      (replace_first_h1 html t).data = pre ++ opn ++ escRepl t ++ cls ++ rest) ∧
    (∀ pre opn inner cls rest,
      subFind html.data = some (pre, opn, inner, cls, rest) →
      html.data = pre ++ opn ++ inner ++ cls ++ rest ∧
      (replace_subtext html t).data = pre ++ opn ++ escRepl t ++ cls ++ rest) := by
  refine ⟨?_, ?_, ?_, ?_⟩
  · intro hn
    unfold replace_first_h1
    rw [hn]
  · intro hn
    unfold replace_subtext
    rw [hn]
  · intro pre opn inner cls rest hf
    refine ⟨h1Find_sound hf, ?_⟩
    unfold replace_first_h1
    rw [hf]
  · intro pre opn inner cls rest hf
    refine ⟨subFind_sound hf, ?_⟩
    unfold replace_subtext
    rw [hf]

/-- Witness for C8: no-ops on markup without the targets, and
first-match-only replacement with the later duplicate untouched. -/
theorem c8_wit :
    replace_first_h1 ("<p>x</p>") ("T") = "<p>x</p>" ∧
    replace_subtext ("<p>x</p>") ("T") = "<p>x</p>" ∧
    (replace_first_h1 ("<h1>a</h1><h1>b</h1>") ("T")).data =
      ("" : String).data ++ ("<h1>" : String).data ++ escRepl ("T") ++
        ("</h1>" : String).data ++ ("<h1>b</h1>" : String).data ∧
    (replace_subtext ("<p class=\"sub\">a</p><p class=\"sub\">b</p>") ("T")).data =
      ("" : String).data ++ ("<p class=\"sub\">" : String).data ++ escRepl ("T") ++
        ("</p>" : String).data ++ ("<p class=\"sub\">b</p>" : String).data :=
  ⟨(c8_noop ("<p>x</p>") ("T")).1 (by decide),
   (c8_noop ("<p>x</p>") ("T")).2.1 (by decide),
   ((c8_noop ("<h1>a</h1><h1>b</h1>") ("T")).2.2.1 (("" : String).data)
      (("<h1>" : String).data) (("a" : String).data) (("</h1>" : String).data)
      (("<h1>b</h1>" : String).data) (by decide)).2,
   ((c8_noop ("<p class=\"sub\">a</p><p class=\"sub\">b</p>") ("T")).2.2.2
      (("" : String).data) (("<p class=\"sub\">" : String).data) (("a" : String).data)
      (("</p>" : String).data) (("<p class=\"sub\">b</p>" : String).data) (by decide)).2⟩

/-! ### Claim about the placeholder replacement -/

/-- Claim C7 (confirmed): `replace_placeholder_with_img` builds an `img` tag
whose `alt` is the placeholder's `aria-label` value and whose `class` is the
placeholder's `class` value, replaces only the first textual occurrence of
the placeholder (the input decomposes as prefix, placeholder, suffix, and the
suffix — containing any later duplicates — is preserved verbatim), and is a
silent no-op when the placeholder does not occur verbatim. -/
theorem c7_ph (html ph uri : String) (cls alt : List Char)
    (hc : attrSearch classLit ph.data = some cls)
    (ha : attrSearch ariaLit ph.data = some alt) :
    (occSplit ph.data html.data = none → replace_placeholder_with_img html ph uri = html) ∧
    (∀ p s, occSplit ph.data html.data = some (p, s) →
      html.data = p ++ ph.data ++ s ∧
      (replace_placeholder_with_img html ph uri).data =
        p ++ ("<img src=\"" ++ uri ++ "\" alt=\"" ++ (⟨alt⟩ : String) ++ "\" class=\"" ++
          (⟨cls⟩ : String) ++ "\"/>").data ++ s) := by
  constructor
  · intro hn
    unfold replace_placeholder_with_img
    rw [hc, ha]
    dsimp only
    unfold replFirst
    rw [hn]
  · intro p s hocc
    refine ⟨occSplit_sound hocc, ?_⟩
    unfold replace_placeholder_with_img
    rw [hc, ha]
    dsimp only
    unfold replFirst
    rw [hocc]

/-- Witness for C7: a duplicated placeholder where only the first occurrence
is replaced (suffix untouched), and a no-op on HTML without it. -/
theorem c7_wit :
    (replace_placeholder_with_img
        ("A<div class=\"img hero\" aria-label=\"image\">x</div>B<div class=\"img hero\" aria-label=\"image\">x</div>")
        ("<div class=\"img hero\" aria-label=\"image\">x</div>") ("data:u")).data =
      ("A" : String).data ++
        ("<img src=\"" ++ ("data:u" : String) ++ "\" alt=\"" ++
          (⟨("image" : String).data⟩ : String) ++ "\" class=\"" ++
          (⟨("img hero" : String).data⟩ : String) ++ "\"/>").data ++
        ("B<div class=\"img hero\" aria-label=\"image\">x</div>" : String).data ∧
    replace_placeholder_with_img ("<p>no placeholder</p>")
      ("<div class=\"img\" aria-label=\"image\">x</div>") ("d") = "<p>no placeholder</p>" :=
  ⟨((c7_ph ("A<div class=\"img hero\" aria-label=\"image\">x</div>B<div class=\"img hero\" aria-label=\"image\">x</div>")
      ("<div class=\"img hero\" aria-label=\"image\">x</div>") ("data:u")
      (("img hero" : String).data) (("image" : String).data) (by decide) (by decide)).2
      (("A" : String).data)
      (("B<div class=\"img hero\" aria-label=\"image\">x</div>" : String).data)
      (by decide)).2,
   (c7_ph ("<p>no placeholder</p>") ("<div class=\"img\" aria-label=\"image\">x</div>") ("d")
      (("img" : String).data) (("image" : String).data) (by decide) (by decide)).1 (by decide)⟩

/-! ### Claims about the asset packager -/

theorem toZipGo_nil (idx : Nat) (h : List Char) : toZipGo [] idx h = some ([], h) := rfl

/-- Claim C5 (confirmed): with no data URI, the archive is exactly
`index.html` (the input HTML), `styles.css` (the input CSS) and an empty
`script.js`; with exactly one `src="data:image/png;base64,<data>"` match, the
archive additionally starts with `assets/img_1.png` holding the decoded
bytes, and `index.html` has the data URI (first occurrence) replaced by
`./assets/img_1.png`.  The embedding is a pure function, so the `html`/`css`
arguments are never mutated. -/
theorem c5_zip (html css : String) :
    (findSrcData html.data = [] →
      to_zip html css = some [("index.html", ZEntry.txt html), ("styles.css", ZEntry.txt css),
        ("script.js", ZEntry.txt (""))]) ∧
    (∀ m a bs p s, findSrcData html.data = [m] →
      occSplit b64sep (uriOf m) = some ((("data:image/png" : String).data), a) →
      b64Decode a = some bs →
      occSplit (uriOf m) html.data = some (p, s) →
      to_zip html css = some [("assets/img_1.png", ZEntry.bin bs),
        ("index.html", ZEntry.txt (⟨p ++ ("./assets/img_1.png" : String).data ++ s⟩ : String)),
        ("styles.css", ZEntry.txt css), ("script.js", ZEntry.txt (""))]) := by
  constructor
  · intro hempty
    unfold to_zip
    rw [hempty]
    rfl
  · intro m a bs p s hm hocc hdec hrepl
    have hpath : ("assets/img_" ++ Nat.repr 1 ++ "." ++
        imgExt (("data:image/png" : String).data) : String) = "assets/img_1.png" := by decide
    have hgo : toZipGo [m] 1 html.data =
        some ([("assets/img_1.png", ZEntry.bin bs)],
          p ++ ("./assets/img_1.png" : String).data ++ s) := by
      unfold toZipGo
      dsimp only
      rw [hocc]
      dsimp only
      rw [hdec]
      dsimp only
      rw [toZipGo_nil]
      dsimp only
      rw [hpath]
      unfold replFirst
      rw [hrepl]
      dsimp only
      rfl
    unfold to_zip
    rw [hm, hgo]
    rfl

/-- Claim C10 (confirmed): in the extraction loop of `to_zip`, a
`src="data:..."` match whose URI has no `;base64,` marker is skipped
entirely, at any position among the matches and any loop state: processing it
writes no archive entry, leaves the running HTML (hence `index.html`)
untouched, and does not advance the image index — the next extracted image
still gets the next unused `img_` number. -/
theorem c10_skip (m : List Char) (ms : List (List Char)) (idx : Nat)
    (html : List Char) (h : occSplit b64sep (uriOf m) = none) :
    toZipGo (m :: ms) idx html = toZipGo ms idx html := by
  conv_lhs => unfold toZipGo
  dsimp only
  rw [h]

/-- Witness for C5: packaging HTML without data URIs, and HTML with a single
embedded png. -/
theorem c5_wit :
    to_zip ("<p>x</p>") ("c") = some [("index.html", ZEntry.txt ("<p>x</p>")),
      ("styles.css", ZEntry.txt ("c")), ("script.js", ZEntry.txt (""))] ∧
    to_zip ("<img src=\"data:image/png;base64,AAAA\"/>") ("c") =
      some [("assets/img_1.png", ZEntry.bin [0, 0, 0]),
        ("index.html", ZEntry.txt (⟨("<img src=\"" : String).data ++
          ("./assets/img_1.png" : String).data ++ ("\"/>" : String).data⟩ : String)),
        ("styles.css", ZEntry.txt ("c")), ("script.js", ZEntry.txt (""))] :=
  ⟨(c5_zip ("<p>x</p>") ("c")).1 (by decide),
   (c5_zip ("<img src=\"data:image/png;base64,AAAA\"/>") ("c")).2
     (("src=\"data:image/png;base64,AAAA\"" : String).data)
     (("AAAA" : String).data) [0, 0, 0]
     (("<img src=\"" : String).data) (("\"/>" : String).data)
     (by decide) (by decide) (by decide) (by decide)⟩

/-- Witness for C10: a plain (non-base64) data-URI match ahead of a png match
is dropped from the loop without touching the index or the HTML. -/
theorem c10_wit :
    occSplit b64sep (uriOf (("src=\"data:text/plain,x\"" : String).data)) = none ∧
    toZipGo [(("src=\"data:text/plain,x\"" : String).data),
        (("src=\"data:image/png;base64,AAAA\"" : String).data)] 1
        (("<img src=\"data:text/plain,x\"/><img src=\"data:image/png;base64,AAAA\"/>" : String).data) =
      toZipGo [(("src=\"data:image/png;base64,AAAA\"" : String).data)] 1
        (("<img src=\"data:text/plain,x\"/><img src=\"data:image/png;base64,AAAA\"/>" : String).data) :=
  ⟨by decide,
   c10_skip (("src=\"data:text/plain,x\"" : String).data)
     [(("src=\"data:image/png;base64,AAAA\"" : String).data)] 1
     (("<img src=\"data:text/plain,x\"/><img src=\"data:image/png;base64,AAAA\"/>" : String).data)
     (by decide)⟩

end LPGen
